import Mathlib

/-!
# PrimeBortDetector: common-ancestor search over the caller graph

A shallow embedding of `PrimeBortDetector.cpp` (the pass that looks, level by
level, for callers shared by the call sites of `llvm.x86.xbegin` and of
`llvm.x86.xend`) together with theorems about it.

Conventions of the embedding.

* A `Function*` is its address, a natural number; `compCallInstByFunction`
  compares these addresses.  Functions are therefore of type `Nat` throughout.
* A `CallInst*` is a record of its own address and of the function returned by
  `getFunction()`.
* The use-list of a function is a list of users, each of which is a call
  instruction or something else (`isa<CallInst>`); the list may repeat a user.
  A call instruction in the use-list of a function is a call site of it.
* The accumulated lists are linked lists: the source splices nodes into them
  and keeps iterators to them across the splice.  An iterator is the position
  of the node it designates, and `end()` is the length of the list; an `end()`
  that was stored before a splice is still `end()` afterwards (`afterSplice`).
* `assert` is fatal: every assertion of the source has a constructor in
  `Violation`, and a failed assertion ends the run with that constructor.
* Loops whose termination is not evident from the source take fuel; running out
  of fuel is the outcome `Outcome.diverge`, which is not a behaviour of the
  program but the statement that the given fuel did not suffice.
-/

namespace PrimeBort

/-- A call instruction: its address and the function that contains it. -/
structure CallInst where
  id : Nat
  getFunction : Nat
deriving DecidableEq, Repr

/-- One entry of a use-list: a call instruction, or any other kind of user. -/
inductive User where
  | call (CI : CallInst)
  | other (id : Nat)
deriving DecidableEq, Repr

/-- The part of an LLVM module that the pass reads: the two functions looked up
by name (absent when `getFunction` returns null) and the use-list of every
function. -/
structure Module where
  xbegin : Option Nat
  xend : Option Nat
  users : Nat → List User

/-- Modelled from the spec: the container type `CI_list` is declared in
`PrimeBortDetector.h`, which is not among the sources.  The source uses it
through the interface of the linked list of the standard library (`push_back`,
`splice`, `erase`, the member `sort`), and the spec describes the containers of
the code as lists whose nodes are spliced from one container into another.  Its
content is the sequence of the call instructions it holds. -/
abbrev CI_list := List CallInst

/-- Modelled from the spec: `CI_list::iterator` is declared with `CI_list` in the
missing header; it is the iterator of a linked list.  An iterator that
designates a node is the position of that node, and `graph.end()` is
`graph.length`.  Nodes are only ever added at the end of an accumulated list, so
the position of a node never changes; the past-the-end iterator does not
designate a node, and a stored `graph.end()` compares equal to `graph.end()`
whatever is spliced into the list later: see `afterSplice`. -/
abbrev CI_iterator := Nat

/-- The map `DenseMap<CallInst*, CallInst*>`: keys in insertion order, the value
`none` being the null pointer. -/
abbrev LinkMap := List (CallInst × Option CallInst)

/-- The assertions of the source, by line. -/
inductive Violation where
  /-- Line 44, `assert(txCommit)`. -/
  | commitMarkerMissing
  /-- Line 73, `assert(f_it != txBeginCallees.end())`. -/
  | beginLinkMissing
  /-- Line 81, `assert(f_it != txCommitCallees.end())`. -/
  | commitLinkMissing
  /-- Lines 96-97, the level boundaries after the loop. -/
  | levelBoundaryNotAtEnd
  /-- Line 98, `assert(pairedTxBegin.size() == pairedTxCommit.size())`. -/
  | pairCountMismatch
  /-- Line 150, `assert(links.empty())`. -/
  | linksNotEmpty
  /-- Line 151, `assert(levels.empty())`. -/
  | levelsNotEmpty
  /-- Lines 158 and 171, `assert(emplit.second)`. -/
  | duplicateLink
  /-- Line 162, `levels.back()` on an empty vector. -/
  | noLevelBoundary
  /-- Line 163, `assert(lb != graph.end())`. -/
  | levelBoundaryAtEnd
deriving DecidableEq, Repr

/-- Result of a run: a value, a failed assertion, or fuel exhausted. -/
inductive Outcome (α : Type) where
  | done (a : α)
  | violation (v : Violation)
  | diverge
deriving DecidableEq, Repr

/-- Line 118: `A->getFunction() < B->getFunction()`. -/
def compCallInstByFunction (A B : CallInst) : Bool :=
  decide (A.getFunction < B.getFunction)

/-- The loop of `diffCallerGraphs` (lines 127-140) on the parts of `A` and `B`
from the two iterators onwards.  Returns the nodes spliced into `intersection`,
what is left of `A` and what is left of `B`.  Every iteration advances at least
one iterator, so `A.length + B.length` iterations always suffice. -/
def diffLoop : Nat → CI_list → CI_list → CI_list × CI_list × CI_list
  | 0, A, B => ([], A, B)
  | _ + 1, [], B => ([], [], B)
  | _ + 1, A, [] => ([], A, [])
  | n + 1, a :: A, b :: B =>
    if compCallInstByFunction a b then
      let r := diffLoop n A (b :: B)
      (r.1, a :: r.2.1, r.2.2)
    else if compCallInstByFunction b a then
      let r := diffLoop n (a :: A) B
      (r.1, r.2.1, b :: r.2.2)
    else
      let r := diffLoop n A B
      (a :: r.1, r.2.1, r.2.2)

/-- Lines 122-143.  The source returns `intersection` and leaves the remainders
in its two reference arguments; here all three are returned, in the order
`(intersection, A, B)`. -/
def diffCallerGraphs (A B : CI_list) : CI_list × CI_list × CI_list :=
  diffLoop (A.length + B.length) A B

/-- `links.try_emplace(CI, parent)`: `none` when the key is already present
(`emplit.second` is false and the map is unchanged), otherwise the map with the
new entry. -/
def try_emplace (links : LinkMap) (CI : CallInst) (parent : Option CallInst) :
    Option LinkMap :=
  match links.lookup CI with
  | some _ => none
  | none => some (links ++ [(CI, parent)])

/-- The loop over the use-list of one function (lines 153-160 and 167-174):
every user that is a call instruction is registered with `parent` as its
back-link and appended to `new_level`. -/
def registerUsers (parent : Option CallInst) :
    List User → CI_list → LinkMap → Except Violation (CI_list × LinkMap)
  | [], new_level, links => .ok (new_level, links)
  | User.other _ :: us, new_level, links => registerUsers parent us new_level links
  | User.call CI :: us, new_level, links =>
    match try_emplace links CI parent with
    | none => .error .duplicateLink
    | some links2 => registerUsers parent us (new_level ++ [CI]) links2

/-- The loop of lines 165-175 over the call instructions `I` of the level that
is expanded. -/
def expandLevel (M : Module) :
    CI_list → CI_list → LinkMap → Except Violation (CI_list × LinkMap)
  | [], new_level, links => .ok (new_level, links)
  | I :: rest, new_level, links =>
    match registerUsers (some I) (M.users I.getFunction) new_level links with
    | .error v => .error v
    | .ok (new_level2, links2) => expandLevel M rest new_level2 links2

/-- Insertion of `x` in front of the first element that does not compare smaller
than it. -/
def sortInsert (x : CallInst) : CI_list → CI_list
  | [] => [x]
  | y :: ys =>
    if compCallInstByFunction y x then y :: sortInsert x ys else x :: y :: ys

/-- Line 178, `new_level.sort(compCallInstByFunction)`: the sort of the standard
list is stable, and the stable sorted arrangement of a list is unique; it is
computed here by insertion from the back. -/
def sortByFunction : CI_list → CI_list
  | [] => []
  | x :: xs => sortInsert x (sortByFunction xs)

/-- Lines 145-180.  `graph` is only read; the new values of `links` and `levels`
are returned with the new level. -/
def levelUpCallerGraph (M : Module) (root : Nat) (graph : CI_list)
    (links : LinkMap) (levels : List CI_iterator) :
    Except Violation (CI_list × LinkMap × List CI_iterator) :=
  if graph.isEmpty then
    if !links.isEmpty then .error .linksNotEmpty
    else if !levels.isEmpty then .error .levelsNotEmpty
    else
      match registerUsers none (M.users root) [] links with
      | .error v => .error v
      | .ok (new_level, links2) =>
        .ok (sortByFunction new_level, links2, levels ++ [graph.length])
  else
    match levels.getLast? with
    | none => .error .noLevelBoundary
    | some lb =>
      if lb = graph.length then .error .levelBoundaryAtEnd
      else
        match expandLevel M (graph.drop lb) [] links with
        | .error v => .error v
        | .ok (new_level, links2) =>
          .ok (sortByFunction new_level, links2, levels ++ [graph.length])

/-- The members of the pass object. -/
structure PassState where
  txCommitCallers : CI_list
  txCommitCallees : LinkMap
  txCommitCallerLevels : List CI_iterator
  txBeginCallers : CI_list
  txBeginCallees : LinkMap
  txBeginCallerLevels : List CI_iterator
  pairedTxBegin : List (List CallInst)
  pairedTxCommit : List (List CallInst)
deriving DecidableEq, Repr

/-- The pass object as left by the default constructor (line 22). -/
def PassState.init : PassState :=
  { txCommitCallers := [], txCommitCallees := [], txCommitCallerLevels := [],
    txBeginCallers := [], txBeginCallees := [], txBeginCallerLevels := [],
    pairedTxBegin := [], pairedTxCommit := [] }

/-- The `do ... while (CI)` walks of lines 70-75 and 78-83: push `CI`, look it up
(`missing` is the assertion that fails when it is absent), continue with its
back-link until that is null.  `strand` is what has been pushed so far. -/
def walkLinks (links : LinkMap) (missing : Violation) :
    Nat → CallInst → List CallInst → Outcome (List CallInst)
  | 0, _, _ => .diverge
  | fuel + 1, CI, strand =>
    match links.lookup CI with
    | none => .violation missing
    | some none => .done (strand ++ [CI])
    | some (some parent) => walkLinks links missing fuel parent (strand ++ [CI])

/-- Lines 68-85, the loop over `candidates`.  `strand` is empty at the start of
each walk (it is moved from by `push_back(std::move(strand))`).  A walk that
ends visits pairwise distinct keys of the map, so `links.length + 1` steps are
enough for every walk that ends. -/
def pairCandidates : CI_list → PassState → Outcome PassState
  | [], st => .done st
  | C :: rest, st =>
    match walkLinks st.txBeginCallees .beginLinkMissing
        (st.txBeginCallees.length + 1) C [] with
    | .violation v => .violation v
    | .diverge => .diverge
    | .done bstrand =>
      match walkLinks st.txCommitCallees .commitLinkMissing
          (st.txCommitCallees.length + 1) C [] with
      | .violation v => .violation v
      | .diverge => .diverge
      | .done cstrand =>
        pairCandidates rest
          { st with pairedTxBegin := st.pairedTxBegin ++ [bstrand],
                    pairedTxCommit := st.pairedTxCommit ++ [cstrand] }

/-- A stored iterator of a list after nodes were spliced in at `end()` (lines
92-93): the list had `oldLength` elements and has `newLength` now.  An iterator
that was `end()` is `end()` of the longer list, an iterator that designates a
node designates the same node. -/
def afterSplice (oldLength newLength : Nat) (it : CI_iterator) : CI_iterator :=
  if it = oldLength then newLength else it

/-- One execution of the body of the `do ... while (!endSearch)` loop, lines
57-93.  Returns the state after the two splices and the value of `endSearch`.
The splices append the remainders to the accumulated lists; the boundaries
recorded in `txCommitCallerLevels` and `txBeginCallerLevels` are iterators of
these lists and are carried over the splice by `afterSplice`. -/
def searchRound (M : Module) (txBegin txCommit : Nat) (st : PassState) :
    Outcome (PassState × Bool) :=
  match levelUpCallerGraph M txBegin st.txBeginCallers st.txBeginCallees
      st.txBeginCallerLevels with
  | .error v => .violation v
  | .ok (new_blevel, blinks, blevels) =>
    match levelUpCallerGraph M txCommit st.txCommitCallers st.txCommitCallees
        st.txCommitCallerLevels with
    | .error v => .violation v
    | .ok (new_clevel, clinks, clevels) =>
      let d := diffCallerGraphs new_blevel new_clevel
      let candidates := d.1
      let rest_blevel := d.2.1
      let rest_clevel := d.2.2
      match pairCandidates candidates
          { st with txBeginCallees := blinks, txBeginCallerLevels := blevels,
                    txCommitCallees := clinks, txCommitCallerLevels := clevels } with
      | .violation v => .violation v
      | .diverge => .diverge
      | .done st2 =>
        let endSearch := rest_blevel.isEmpty && rest_clevel.isEmpty
        .done ({ st2 with
                 txCommitCallers := st2.txCommitCallers ++ rest_clevel,
                 txCommitCallerLevels := st2.txCommitCallerLevels.map
                   (afterSplice st2.txCommitCallers.length
                     (st2.txCommitCallers ++ rest_clevel).length),
                 txBeginCallers := st2.txBeginCallers ++ rest_blevel,
                 txBeginCallerLevels := st2.txBeginCallerLevels.map
                   (afterSplice st2.txBeginCallers.length
                     (st2.txBeginCallers ++ rest_blevel).length) },
               endSearch)

/-- The loop of lines 55-94; `rounds` bounds the number of executions of its
body. -/
def searchLoop (M : Module) (txBegin txCommit : Nat) :
    Nat → PassState → Outcome PassState
  | 0, _ => .diverge
  | rounds + 1, st =>
    match searchRound M txBegin txCommit st with
    | .violation v => .violation v
    | .diverge => .diverge
    | .done (st2, endSearch) =>
      if endSearch then .done st2 else searchLoop M txBegin txCommit rounds st2

/-- The assertions after the loop, lines 96-98. -/
def checkFinal (st : PassState) : Outcome PassState :=
  if st.txCommitCallerLevels.getLast? = some st.txCommitCallers.length ∧
      st.txBeginCallerLevels.getLast? = some st.txBeginCallers.length then
    if st.pairedTxBegin.length = st.pairedTxCommit.length then .done st
    else .violation .pairCountMismatch
  else .violation .levelBoundaryNotAtEnd

/-- Lines 37-116, on a freshly constructed pass object.  The result is the pass
object afterwards; the chains found are its `pairedTxBegin` and
`pairedTxCommit`. -/
def runOnModule (rounds : Nat) (M : Module) : Outcome PassState :=
  match M.xbegin with
  | none => .done PassState.init
  | some txBegin =>
    match M.xend with
    | none => .violation .commitMarkerMissing
    | some txCommit =>
      match searchLoop M txBegin txCommit rounds PassState.init with
      | .violation v => .violation v
      | .diverge => .diverge
      | .done st => checkFinal st

/-- The result set: the i-th begin chain with the i-th commit chain. -/
def PassState.pairs (st : PassState) : List (List CallInst × List CallInst) :=
  st.pairedTxBegin.zip st.pairedTxCommit

/-- A frontier is sorted when no element compares smaller than an element in
front of it. -/
def SortedByFunction (l : CI_list) : Prop :=
  l.Pairwise (fun x y => compCallInstByFunction y x = false)

instance (l : CI_list) : Decidable (SortedByFunction l) := by
  unfold SortedByFunction; infer_instance

/-- Number of entries of `l` whose containing function is `f`. -/
def countIn (f : Nat) (l : CI_list) : Nat :=
  l.countP (fun x => decide (x.getFunction = f))

/-- The call instructions of a use-list, in the order of the list. -/
def callUsers : List User → CI_list
  | [] => []
  | User.call CI :: us => CI :: callUsers us
  | User.other _ :: us => callUsers us

/-- Scenario A: `foo` (3) calls `llvm.x86.xbegin` (1), `bar` (4) calls
`llvm.x86.xend` (2), `main` (5) calls `foo` and `bar`; one call site each. -/
def scenarioA : Module :=
  { xbegin := some 1, xend := some 2,
    users := fun f =>
      match f with
      | 1 => [User.call ⟨10, 3⟩]
      | 2 => [User.call ⟨11, 4⟩]
      | 3 => [User.call ⟨12, 5⟩]
      | 4 => [User.call ⟨13, 5⟩]
      | _ => [] }

/-- The begin marker is declared but never called, the commit marker (2) is
called once, from function 4. -/
def beginNeverCalled : Module :=
  { xbegin := some 1, xend := some 2,
    users := fun f =>
      match f with
      | 2 => [User.call ⟨11, 4⟩]
      | _ => [] }

/-- Scenario C: `foo` (3) contains two calls of the begin marker (1), `bar` (4)
one call of the commit marker (2), and `main` (5) calls `foo` and `bar`, so that
`main` is reached at depth two from all three marker calls. -/
def scenarioC : Module :=
  { xbegin := some 1, xend := some 2,
    users := fun f =>
      match f with
      | 1 => [User.call ⟨10, 3⟩, User.call ⟨11, 3⟩]
      | 2 => [User.call ⟨12, 4⟩]
      | 3 => [User.call ⟨13, 5⟩]
      | 4 => [User.call ⟨14, 5⟩]
      | _ => [] }

/-- Scenario C at depth one: function 3 contains two calls of the begin marker
and one call of the commit marker. -/
def scenarioCFlat : Module :=
  { xbegin := some 1, xend := some 2,
    users := fun f =>
      match f with
      | 1 => [User.call ⟨10, 3⟩, User.call ⟨11, 3⟩]
      | 2 => [User.call ⟨12, 3⟩]
      | _ => [] }

/-- Scenario B with trees of different heights: `foo` (3) calls the begin marker
and is called from `top` (5); `bar` (4) calls the commit marker and has no
caller.  No function is an ancestor of both marker calls. -/
def scenarioBUneven : Module :=
  { xbegin := some 1, xend := some 2,
    users := fun f =>
      match f with
      | 1 => [User.call ⟨10, 3⟩]
      | 2 => [User.call ⟨11, 4⟩]
      | 3 => [User.call ⟨12, 5⟩]
      | _ => [] }

/-- Scenario B with trees of the same height: as `scenarioBUneven`, and `bar` (4)
is called from `other` (6). -/
def scenarioBEven : Module :=
  { xbegin := some 1, xend := some 2,
    users := fun f =>
      match f with
      | 1 => [User.call ⟨10, 3⟩]
      | 2 => [User.call ⟨11, 4⟩]
      | 3 => [User.call ⟨12, 5⟩]
      | 4 => [User.call ⟨13, 6⟩]
      | _ => [] }

/-- Both markers are declared and neither is called. -/
def markersUnused : Module :=
  { xbegin := some 1, xend := some 2, users := fun _ => [] }

/-- One call instruction, the call 10 in function 3, is in the use-list of both
markers: it is a user of the one marker that calls the other marker, or calls a
third function with both markers among its operands. -/
def sharedCall : Module :=
  { xbegin := some 1, xend := some 2,
    users := fun f =>
      match f with
      | 1 => [User.call ⟨10, 3⟩]
      | 2 => [User.call ⟨10, 3⟩]
      | _ => [] }

/-- The entries that expanding `level` adds to the back-link map, in the order
of discovery: for each `I` of the level, every call instruction among the users
of the function containing `I`, with `I` as its back-link. -/
def discovered (M : Module) : CI_list → LinkMap
  | [] => []
  | I :: rest =>
    (callUsers (M.users I.getFunction)).map (fun U => (U, some I)) ++ discovered M rest

/-- The entries `es` can be appended to `links` one after the other by
`try_emplace`: their keys are pairwise distinct and none is a key of `links`. -/
def Fresh (links es : LinkMap) : Prop :=
  (es.map Prod.fst).Nodup ∧ ∀ c ∈ es.map Prod.fst, links.lookup c = none

/-- The state in which `pairCandidates` runs: the pass object after the two
calls of `levelUpCallerGraph` of a round. -/
def afterLevelUp (st : PassState) (blinks : LinkMap) (blevels : List Nat)
    (clinks : LinkMap) (clevels : List Nat) : PassState :=
  { st with txBeginCallees := blinks, txBeginCallerLevels := blevels,
            txCommitCallees := clinks, txCommitCallerLevels := clevels }

/-- Every back-link that is null belongs to a call instruction that uses
`root`. -/
def RootsUse (M : Module) (root : Nat) (links : LinkMap) : Prop :=
  ∀ c, links.lookup c = some none → User.call c ∈ M.users root

/-- A pair of chains starts from one call instruction and ends, on the begin
side, in a call instruction that uses `txBegin` and has no back-link in
`txBeginCallees`, and on the commit side in one that uses `txCommit` and has no
back-link in `txCommitCallees`. -/
def PairAnchored (M : Module) (txBegin txCommit : Nat) (st : PassState)
    (p : List CallInst × List CallInst) : Prop :=
  ∃ C lastB lastC, p.1.head? = some C ∧ p.2.head? = some C ∧
    p.1.getLast? = some lastB ∧ p.2.getLast? = some lastC ∧
    User.call lastB ∈ M.users txBegin ∧ st.txBeginCallees.lookup lastB = some none ∧
    User.call lastC ∈ M.users txCommit ∧ st.txCommitCallees.lookup lastC = some none

/-- Invariant of the search loop used for the anchoring of the chains. -/
def AnchoredInv (M : Module) (txBegin txCommit : Nat) (st : PassState) : Prop :=
  st.pairedTxBegin.length = st.pairedTxCommit.length ∧
  (∀ p ∈ st.pairs, PairAnchored M txBegin txCommit st p) ∧
  RootsUse M txBegin st.txBeginCallees ∧ RootsUse M txCommit st.txCommitCallees

/-- The function whose use-list produced an entry of the back-link map: `root`
for an entry without back-link, otherwise the function of the back-link. -/
def sourceOf (root : Nat) : Option CallInst → Nat
  | none => root
  | some I => I.getFunction

/-- Every walk from a key of the map ends within as many steps as the map has
entries. -/
def WalksEnd (links : LinkMap) : Prop :=
  ∀ c, links.lookup c ≠ none → ∀ (missing : Violation) (s : List CallInst),
    ∃ ch, walkLinks links missing links.length c s = .done ch

/-- Every call instruction of the accumulated list is a key of the map. -/
def KeysCover (graph : CI_list) (links : LinkMap) : Prop :=
  ∀ c ∈ graph, links.lookup c ≠ none

/-- The last recorded boundary is the end of the accumulated list. -/
def Exhausted (graph : CI_list) (levels : List Nat) : Prop :=
  levels.getLast? = some graph.length

/-- The entries that a call of `levelUpCallerGraph` sets out to register, in the
order in which it meets them, or `none` when one of the assertions of lines 150,
151, 162 and 163 stops the call before it looks at any use-list. -/
def discoveries (M : Module) (root : Nat) (graph : CI_list) (links : LinkMap)
    (levels : List Nat) : Option LinkMap :=
  if graph.isEmpty then
    if links.isEmpty && levels.isEmpty then
      some ((callUsers (M.users root)).map (fun U => (U, none)))
    else none
  else
    match levels.getLast? with
    | none => none
    | some lb => if lb = graph.length then none else some (discovered M (graph.drop lb))

/-- The list `path` starts with `c`, each of its elements but the last has the
next element as its back-link in `links`, and looking up its last element gives
`final`: `some none` for an element with the null back-link, `none` for an
element that is no key of the map. -/
def PathFrom (links : LinkMap) (final : Option (Option CallInst)) :
    CallInst → List CallInst → Prop
  | _, [] => False
  | c, [x] => x = c ∧ links.lookup c = final
  | c, x :: y :: rest =>
    x = c ∧ links.lookup c = some (some y) ∧ PathFrom links final y (y :: rest)

/-- The outcomes of a lookup at which a walk stops. -/
def Terminal (final : Option (Option CallInst)) : Prop :=
  final = none ∨ final = some none

/-- The pass object at the start of a round: `afterRounds M txBegin txCommit k st`
is the state reached from `st` by `k` rounds that all complete without setting
`endSearch`, if there is one. -/
def afterRounds (M : Module) (txBegin txCommit : Nat) : Nat → PassState → Option PassState
  | 0, st => some st
  | k + 1, st =>
    match searchRound M txBegin txCommit st with
    | .done (st2, false) => afterRounds M txBegin txCommit k st2
    | _ => none

/-- On both sides every call instruction of the accumulated list is a key of the
map and every walk from a key ends. -/
def WalkInv (st : PassState) : Prop :=
  KeysCover st.txBeginCallers st.txBeginCallees ∧ WalksEnd st.txBeginCallees ∧
  KeysCover st.txCommitCallers st.txCommitCallees ∧ WalksEnd st.txCommitCallees

/-- Line 7, `#define INST_SEARCH_LIMIT 8192`; the macro is used nowhere in the
source. -/
def INST_SEARCH_LIMIT : Nat := 8192

/-! ## Theorems -/

theorem countIn_nil (f : Nat) : countIn f [] = 0 := rfl

theorem countIn_cons (f : Nat) (a : CallInst) (l : CI_list) :
    countIn f (a :: l) = countIn f l + (if a.getFunction = f then 1 else 0) := by
  unfold countIn
  rw [List.countP_cons]
  simp

theorem countIn_pos_iff (f : Nat) (l : CI_list) :
    0 < countIn f l ↔ ∃ x ∈ l, x.getFunction = f := by
  unfold countIn
  rw [List.countP_pos_iff]
  simp

theorem countIn_eq_zero_iff (f : Nat) (l : CI_list) :
    countIn f l = 0 ↔ ∀ x ∈ l, x.getFunction ≠ f := by
  unfold countIn
  rw [List.countP_eq_zero]
  simp

theorem SortedByFunction.tail {a : CallInst} {l : CI_list}
    (h : SortedByFunction (a :: l)) : SortedByFunction l :=
  (List.pairwise_cons.1 h).2

theorem SortedByFunction.head_le {a : CallInst} {l : CI_list}
    (h : SortedByFunction (a :: l)) :
    ∀ x ∈ l, a.getFunction ≤ x.getFunction := by
  intro x hx
  have := (List.pairwise_cons.1 h).1 x hx
  simpa [compCallInstByFunction] using this

/-- In a sorted frontier nothing lies in a function below that of the head. -/
theorem countIn_eq_zero_of_lt {f : Nat} {b : CallInst} {B : CI_list}
    (h : SortedByFunction (b :: B)) (hf : f < b.getFunction) :
    countIn f (b :: B) = 0 := by
  rw [countIn_eq_zero_iff]
  intro x hx
  rcases List.mem_cons.1 hx with rfl | hx
  · omega
  · have := h.head_le x hx
    omega

/-- Counts, function by function, of the three lists that the merge produces
from two sorted frontiers. -/
theorem diffLoop_countIn (f : Nat) :
    ∀ (n : Nat) (A B : CI_list), A.length + B.length ≤ n →
      SortedByFunction A → SortedByFunction B →
      countIn f (diffLoop n A B).1 = min (countIn f A) (countIn f B) ∧
      countIn f (diffLoop n A B).2.1 = countIn f A - countIn f B ∧
      countIn f (diffLoop n A B).2.2 = countIn f B - countIn f A := by
  intro n
  induction n with
  | zero =>
    intro A B hn _ _
    have hA : A = [] := List.length_eq_zero.1 (by omega)
    have hB : B = [] := List.length_eq_zero.1 (by omega)
    subst hA; subst hB
    simp [diffLoop, countIn_nil]
  | succ n ih =>
    intro A B hn hA hB
    cases A with
    | nil => simp [diffLoop, countIn_nil]
    | cons a A =>
      cases B with
      | nil => simp [diffLoop, countIn_nil]
      | cons b B =>
        simp only [List.length_cons] at hn
        by_cases h1 : a.getFunction < b.getFunction
        · have ih1 := ih A (b :: B) (by simp only [List.length_cons]; omega) hA.tail hB
          have hc : compCallInstByFunction a b = true := by
            simp [compCallInstByFunction, h1]
          simp only [diffLoop, hc, if_true]
          rw [countIn_cons f a A, countIn_cons f a]
          by_cases hf : a.getFunction = f
          · have hz : countIn f (b :: B) = 0 :=
              countIn_eq_zero_of_lt hB (by omega)
            simp only [hf, if_true]
            rw [hz] at ih1 ⊢
            omega
          · simp only [hf, if_false]
            simpa using ih1
        · have hc : compCallInstByFunction a b = false := by
            simp [compCallInstByFunction, h1]
          by_cases h2 : b.getFunction < a.getFunction
          · have ih2 := ih (a :: A) B (by simp only [List.length_cons]; omega) hA hB.tail
            have hc2 : compCallInstByFunction b a = true := by
              simp [compCallInstByFunction, h2]
            simp only [diffLoop, hc, hc2, if_true, Bool.false_eq_true, if_false]
            rw [countIn_cons f b B, countIn_cons f b]
            by_cases hf : b.getFunction = f
            · have hz : countIn f (a :: A) = 0 :=
                countIn_eq_zero_of_lt hA (by omega)
              simp only [hf, if_true]
              rw [hz] at ih2 ⊢
              omega
            · simp only [hf, if_false]
              simpa using ih2
          · have ih3 := ih A B (by omega) hA.tail hB.tail
            have hc2 : compCallInstByFunction b a = false := by
              simp [compCallInstByFunction, h2]
            have hab : a.getFunction = b.getFunction := by omega
            simp only [diffLoop, hc, hc2, Bool.false_eq_true, if_false]
            rw [countIn_cons f a A, countIn_cons f b B, countIn_cons f a]
            by_cases hf : a.getFunction = f
            · have hf2 : b.getFunction = f := by omega
              simp only [hf, hf2, if_true]
              omega
            · have hf2 : ¬ b.getFunction = f := by omega
              simp only [hf, hf2, if_false]
              simpa using ih3

theorem diffCallerGraphs_countIn (f : Nat) (A B : CI_list)
    (hA : SortedByFunction A) (hB : SortedByFunction B) :
    countIn f (diffCallerGraphs A B).1 = min (countIn f A) (countIn f B) ∧
    countIn f (diffCallerGraphs A B).2.1 = countIn f A - countIn f B ∧
    countIn f (diffCallerGraphs A B).2.2 = countIn f B - countIn f A :=
  diffLoop_countIn f _ A B (le_refl _) hA hB


/-- The fuel given by `diffCallerGraphs` is enough: any larger amount gives the
same result. -/
theorem diffLoop_fuel :
    ∀ (n : Nat) (A B : CI_list), A.length + B.length ≤ n →
      diffLoop n A B = diffCallerGraphs A B := by
  have key : ∀ (n m : Nat) (A B : CI_list), A.length + B.length ≤ n →
      A.length + B.length ≤ m → diffLoop n A B = diffLoop m A B := by
    intro n
    induction n with
    | zero =>
      intro m A B hn _
      have hA : A = [] := List.length_eq_zero.1 (by omega)
      have hB : B = [] := List.length_eq_zero.1 (by omega)
      subst hA; subst hB
      cases m <;> rfl
    | succ n ih =>
      intro m A B hn hm
      cases A with
      | nil => cases m <;> cases B <;> rfl
      | cons a A =>
        cases B with
        | nil => cases m <;> rfl
        | cons b B =>
          simp only [List.length_cons] at hn hm
          obtain ⟨m, rfl⟩ : ∃ k, m = k + 1 := ⟨m - 1, by omega⟩
          simp only [diffLoop]
          rw [ih m A (b :: B) (by simp only [List.length_cons]; omega)
              (by simp only [List.length_cons]; omega),
            ih m (a :: A) B (by simp only [List.length_cons]; omega)
              (by simp only [List.length_cons]; omega),
            ih m A B (by omega) (by omega)]
  intro n A B hn
  exact key n _ A B hn (le_refl _)

/-- The three lists that the merge produces are sublists of its inputs: the
intersection and the remainder of `A` of `A`, the remainder of `B` of `B`. -/
theorem diffLoop_sublist :
    ∀ (n : Nat) (A B : CI_list),
      (diffLoop n A B).1.Sublist A ∧ (diffLoop n A B).2.1.Sublist A ∧
      (diffLoop n A B).2.2.Sublist B := by
  intro n
  induction n with
  | zero => intro A B; simp [diffLoop]
  | succ n ih =>
    intro A B
    cases A with
    | nil => simp [diffLoop]
    | cons a A =>
      cases B with
      | nil => simp [diffLoop]
      | cons b B =>
        simp only [diffLoop]
        split
        · obtain ⟨h1, h2, h3⟩ := ih A (b :: B)
          exact ⟨h1.cons a, h2.cons₂ a, h3⟩
        · split
          · obtain ⟨h1, h2, h3⟩ := ih (a :: A) B
            exact ⟨h1, h2, h3.cons₂ b⟩
          · obtain ⟨h1, h2, h3⟩ := ih A B
            exact ⟨h1.cons₂ a, h2.cons a, h3.cons b⟩

/-- A sublist that keeps the number of entries lying in `f` keeps every entry
lying in `f`. -/
theorem mem_of_sublist_of_countIn_eq {l l2 : CI_list} (hs : l2.Sublist l)
    {x : CallInst} (hx : x ∈ l)
    (hc : countIn x.getFunction l2 = countIn x.getFunction l) : x ∈ l2 := by
  have hf : (l2.filter (fun y => decide (y.getFunction = x.getFunction))).Sublist
      (l.filter (fun y => decide (y.getFunction = x.getFunction))) := hs.filter _
  have hlen : (l2.filter (fun y => decide (y.getFunction = x.getFunction))).length =
      (l.filter (fun y => decide (y.getFunction = x.getFunction))).length := by
    rw [← List.countP_eq_length_filter, ← List.countP_eq_length_filter]
    exact hc
  have heq := hf.eq_of_length hlen
  have hmem : x ∈ l.filter (fun y => decide (y.getFunction = x.getFunction)) := by
    simp [List.mem_filter, hx]
  rw [← heq] at hmem
  exact (List.mem_filter.1 hmem).1

/-- C2: for sorted frontiers `A` and `B`, a function contains an entry of the
list returned by `diffCallerGraphs` exactly when it contains an entry of `A` and
an entry of `B`. -/
theorem diffCallerGraphs_functions_eq_intersection (A B : CI_list)
    (hA : SortedByFunction A) (hB : SortedByFunction B) (f : Nat) :
    (∃ x ∈ (diffCallerGraphs A B).1, x.getFunction = f) ↔
      ((∃ a ∈ A, a.getFunction = f) ∧ (∃ b ∈ B, b.getFunction = f)) := by
  rw [← countIn_pos_iff, ← countIn_pos_iff, ← countIn_pos_iff,
    (diffCallerGraphs_countIn f A B hA hB).1]
  omega

/-- Witness for C2: frontiers with two entries in function 3 on the begin side. -/
theorem diffCallerGraphs_functions_eq_intersection_witness :
    SortedByFunction [⟨1, 2⟩, ⟨2, 3⟩, ⟨3, 3⟩] ∧ SortedByFunction [⟨4, 3⟩, ⟨5, 7⟩] ∧
    ((∃ x ∈ (diffCallerGraphs [⟨1, 2⟩, ⟨2, 3⟩, ⟨3, 3⟩] [⟨4, 3⟩, ⟨5, 7⟩]).1,
        x.getFunction = 3) ↔
      ((∃ a ∈ [(⟨1, 2⟩ : CallInst), ⟨2, 3⟩, ⟨3, 3⟩], a.getFunction = 3) ∧
       (∃ b ∈ [(⟨4, 3⟩ : CallInst), ⟨5, 7⟩], b.getFunction = 3))) :=
  ⟨by decide, by decide,
    diffCallerGraphs_functions_eq_intersection _ _ (by decide) (by decide) 3⟩

/-- C3 as stated fails: with two entries of `A` and one entry of `B` in the same
function, the second entry of `A` stays in the remainder of `A` although its
function contains an entry of `B`. -/
theorem diffCallerGraphs_remainder_not_symmetric_difference :
    SortedByFunction [⟨1, 3⟩, ⟨2, 3⟩] ∧ SortedByFunction [⟨3, 3⟩] ∧
    ¬ (∀ a ∈ [(⟨1, 3⟩ : CallInst), ⟨2, 3⟩],
        (a ∈ (diffCallerGraphs [⟨1, 3⟩, ⟨2, 3⟩] [⟨3, 3⟩]).2.1 ↔
          ∀ b ∈ [(⟨3, 3⟩ : CallInst)], b.getFunction ≠ a.getFunction)) := by
  decide

/-- C3, amended: for sorted frontiers the remainders are the difference of the
frontiers counted function by function.  In every function the remainder of `A`
keeps as many entries as `A` has more than `B` there and the remainder of `B` as
many as `B` has more than `A`; an entry whose function has no entry on the other
side remains; every remaining entry is an entry of its frontier and lies in a
function with more entries on its own side than on the other. -/
theorem diffCallerGraphs_remainders (A B : CI_list)
    (hA : SortedByFunction A) (hB : SortedByFunction B) :
    (∀ f, countIn f (diffCallerGraphs A B).2.1 = countIn f A - countIn f B) ∧
    (∀ f, countIn f (diffCallerGraphs A B).2.2 = countIn f B - countIn f A) ∧
    (∀ a ∈ A, (∀ b ∈ B, b.getFunction ≠ a.getFunction) →
      a ∈ (diffCallerGraphs A B).2.1) ∧
    (∀ b ∈ B, (∀ a ∈ A, a.getFunction ≠ b.getFunction) →
      b ∈ (diffCallerGraphs A B).2.2) ∧
    (∀ x ∈ (diffCallerGraphs A B).2.1,
      x ∈ A ∧ countIn x.getFunction B < countIn x.getFunction A) ∧
    (∀ x ∈ (diffCallerGraphs A B).2.2,
      x ∈ B ∧ countIn x.getFunction A < countIn x.getFunction B) := by
  have hc := fun f => diffCallerGraphs_countIn f A B hA hB
  have hs : (diffCallerGraphs A B).1.Sublist A ∧
      (diffCallerGraphs A B).2.1.Sublist A ∧ (diffCallerGraphs A B).2.2.Sublist B :=
    diffLoop_sublist (A.length + B.length) A B
  refine ⟨fun f => (hc f).2.1, fun f => (hc f).2.2, ?_, ?_, ?_, ?_⟩
  · intro a ha hno
    have hz : countIn a.getFunction B = 0 := (countIn_eq_zero_iff _ _).2 hno
    refine mem_of_sublist_of_countIn_eq hs.2.1 ha ?_
    rw [(hc a.getFunction).2.1, hz]
    omega
  · intro b hb hno
    have hz : countIn b.getFunction A = 0 := (countIn_eq_zero_iff _ _).2 hno
    refine mem_of_sublist_of_countIn_eq hs.2.2 hb ?_
    rw [(hc b.getFunction).2.2, hz]
    omega
  · intro x hx
    refine ⟨hs.2.1.subset hx, ?_⟩
    have hp : 0 < countIn x.getFunction (diffCallerGraphs A B).2.1 :=
      (countIn_pos_iff _ _).2 ⟨x, hx, rfl⟩
    rw [(hc x.getFunction).2.1] at hp
    omega
  · intro x hx
    refine ⟨hs.2.2.subset hx, ?_⟩
    have hp : 0 < countIn x.getFunction (diffCallerGraphs A B).2.2 :=
      (countIn_pos_iff _ _).2 ⟨x, hx, rfl⟩
    rw [(hc x.getFunction).2.2] at hp
    omega

/-- Witness for the amended C3, on the frontiers of the counterexample. -/
theorem diffCallerGraphs_remainders_witness :
    SortedByFunction [⟨1, 3⟩, ⟨2, 3⟩] ∧ SortedByFunction [⟨3, 3⟩] ∧
    (diffCallerGraphs [⟨1, 3⟩, ⟨2, 3⟩] [⟨3, 3⟩]).2.1 = [⟨2, 3⟩] ∧
    (∀ f, countIn f (diffCallerGraphs [⟨1, 3⟩, ⟨2, 3⟩] [⟨3, 3⟩]).2.1 =
      countIn f [⟨1, 3⟩, ⟨2, 3⟩] - countIn f [⟨3, 3⟩]) :=
  ⟨by decide, by decide, by decide,
    (diffCallerGraphs_remainders _ _ (by decide) (by decide)).1⟩

/-- C5, the behaviour of the code: the begin marker has no call site and the
commit marker has one.  The first round leaves the commit side with a remainder,
so a second round is made, and there the begin side is expanded again with an
empty `graph` and a non-empty `levels`: the assertion of line 151 fails. -/
theorem beginNeverCalled_aborts (k : Nat) :
    beginNeverCalled.users 1 = [] ∧
    runOnModule 1 beginNeverCalled = Outcome.diverge ∧
    runOnModule (k + 2) beginNeverCalled = Outcome.violation Violation.levelsNotEmpty :=
  ⟨rfl, rfl, rfl⟩

/-! ### The stable sort -/

theorem sortInsert_perm (x : CallInst) : ∀ l : CI_list, (sortInsert x l).Perm (x :: l) := by
  intro l
  induction l with
  | nil => exact List.Perm.refl _
  | cons y ys ih =>
    simp only [sortInsert]
    split
    · exact ((List.Perm.cons y ih).trans (List.Perm.swap x y ys))
    · exact List.Perm.refl _

theorem sortByFunction_perm : ∀ l : CI_list, (sortByFunction l).Perm l := by
  intro l
  induction l with
  | nil => exact List.Perm.refl _
  | cons x xs ih =>
    simp only [sortByFunction]
    exact (sortInsert_perm x _).trans (List.Perm.cons x ih)

theorem mem_sortByFunction {l : CI_list} {c : CallInst} : c ∈ sortByFunction l ↔ c ∈ l :=
  (sortByFunction_perm l).mem_iff

theorem sortByFunction_eq_nil {l : CI_list} : sortByFunction l = [] ↔ l = [] := by
  constructor
  · intro h
    have hp := (sortByFunction_perm l).symm
    rw [h] at hp
    exact hp.eq_nil
  · intro h
    subst h
    rfl

theorem sortInsert_sorted (x : CallInst) :
    ∀ l : CI_list, SortedByFunction l → SortedByFunction (sortInsert x l) := by
  intro l
  induction l with
  | nil => intro _; simp [sortInsert, SortedByFunction]
  | cons y ys ih =>
    intro h
    simp only [sortInsert]
    by_cases hc : compCallInstByFunction y x = true
    · simp only [hc, if_true]
      have hy := List.pairwise_cons.1 h
      refine List.pairwise_cons.2 ⟨?_, ih hy.2⟩
      intro z hz
      rcases List.mem_cons.1 ((sortInsert_perm x ys).mem_iff.1 hz) with rfl | hz
      · simp only [compCallInstByFunction, decide_eq_true_eq] at hc
        simp only [compCallInstByFunction, decide_eq_false_iff_not]
        omega
      · exact hy.1 z hz
    · simp only [hc, if_false, Bool.false_eq_true]
      have hxy : compCallInstByFunction y x = false := by simpa using hc
      refine List.pairwise_cons.2 ⟨?_, h⟩
      intro z hz
      rcases List.mem_cons.1 hz with rfl | hz
      · exact hxy
      · have hyz := h.head_le z hz
        simp only [compCallInstByFunction, decide_eq_false_iff_not] at hxy ⊢
        omega

theorem sortByFunction_sorted : ∀ l : CI_list, SortedByFunction (sortByFunction l) := by
  intro l
  induction l with
  | nil => simp [sortByFunction, SortedByFunction]
  | cons x xs ih => exact sortInsert_sorted x _ ih

/-! ### Registration of the users of a function -/

theorem mem_callUsers {c : CallInst} : ∀ {us : List User}, c ∈ callUsers us ↔ User.call c ∈ us := by
  intro us
  induction us with
  | nil => simp [callUsers]
  | cons u us ih =>
    cases u with
    | call d => simp [callUsers, ih]
    | other n => simp [callUsers, ih]

theorem try_emplace_eq_some {links links2 : LinkMap} {c : CallInst} {p : Option CallInst} :
    try_emplace links c p = some links2 ↔
      (links.lookup c = none ∧ links2 = links ++ [(c, p)]) := by
  unfold try_emplace
  cases h : links.lookup c with
  | none => simp [eq_comm]
  | some v => simp

theorem try_emplace_eq_none {links : LinkMap} {c : CallInst} {p : Option CallInst} :
    try_emplace links c p = none ↔ links.lookup c ≠ none := by
  unfold try_emplace
  cases h : links.lookup c with
  | none => simp
  | some v => simp

/-- Looking up a key that the first part of the map does not hold. -/
theorem lookup_append_of_none {l1 l2 : LinkMap} {c : CallInst}
    (h : l1.lookup c = none) : (l1 ++ l2).lookup c = l2.lookup c := by
  rw [List.lookup_append, h]
  rfl

/-- Looking up a key that the first part of the map holds. -/
theorem lookup_append_of_some {l1 l2 : LinkMap} {c : CallInst} {v : Option CallInst}
    (h : l1.lookup c = some v) : (l1 ++ l2).lookup c = some v := by
  rw [List.lookup_append, h]
  rfl

theorem lookup_eq_none_iff_not_mem_keys {l : LinkMap} {c : CallInst} :
    l.lookup c = none ↔ c ∉ l.map Prod.fst := by
  rw [List.lookup_eq_none_iff]
  simp only [bne_iff_ne, ne_eq, List.mem_map, Prod.exists, exists_and_right, exists_eq_right,
    not_exists]
  constructor
  · intro h v hv
    exact h (c, v) hv rfl
  · intro h p hp hcp
    exact h p.2 (by rw [hcp]; exact hp)

theorem lookup_of_mem_of_nodup {l : LinkMap} {c : CallInst} {v : Option CallInst}
    (hn : (l.map Prod.fst).Nodup) (hm : (c, v) ∈ l) : l.lookup c = some v := by
  induction l with
  | nil => simp at hm
  | cons e l ih =>
    obtain ⟨k, w⟩ := e
    simp only [List.map_cons, List.nodup_cons] at hn
    rcases List.mem_cons.1 hm with heq | hm2
    · cases heq
      simp
    · have hne : c ≠ k := by
        intro hck
        subst hck
        exact hn.1 (List.mem_map.2 ⟨(c, v), hm2, rfl⟩)
      rw [List.lookup_cons]
      have hb : (c == k) = false := by simpa using hne
      rw [hb]
      exact ih hn.2 hm2

theorem mem_of_lookup_eq_some {l : LinkMap} {c : CallInst} {v : Option CallInst}
    (h : l.lookup c = some v) : (c, v) ∈ l := by
  obtain ⟨l1, l2, rfl, _⟩ := List.lookup_eq_some_iff.1 h
  simp

/-- Result of the loop over one use-list: it succeeds exactly when the call
instructions of the list are pairwise distinct and none is a key yet, and then
appends them, in order, to the level and to the map. -/
theorem registerUsers_ok_iff (parent : Option CallInst) :
    ∀ (us : List User) (nl : CI_list) (links : LinkMap) (r : CI_list × LinkMap),
      registerUsers parent us nl links = .ok r ↔
        (r = (nl ++ callUsers us, links ++ (callUsers us).map (fun U => (U, parent))) ∧
          (callUsers us).Nodup ∧ ∀ c ∈ callUsers us, links.lookup c = none) := by
  intro us
  induction us with
  | nil =>
    intro nl links r
    simp only [registerUsers, callUsers, List.append_nil, List.map_nil, List.nodup_nil,
      List.not_mem_nil, false_implies, implies_true, and_true]
    constructor
    · intro h
      cases h
      rfl
    · intro h
      rw [h]
  | cons u us ih =>
    intro nl links r
    cases u with
    | other n => simp only [registerUsers, callUsers]; exact ih nl links r
    | call d =>
      simp only [registerUsers, callUsers]
      cases hte : try_emplace links d parent with
      | none =>
        have hd := try_emplace_eq_none.1 hte
        constructor
        · intro h
          cases h
        · rintro ⟨_, _, hall⟩
          exact absurd (hall d (List.mem_cons_self _ _)) hd
      | some links2 =>
        obtain ⟨hd, rfl⟩ := try_emplace_eq_some.1 hte
        simp only
        rw [ih]
        simp only [List.append_assoc, List.singleton_append, List.map_cons, List.nodup_cons,
          List.mem_cons, forall_eq_or_imp]
        constructor
        · rintro ⟨hr, hnd, hall⟩
          refine ⟨hr, ⟨?_, hnd⟩, hd, ?_⟩
          · intro hmem
            have := hall d hmem
            rw [lookup_append_of_none hd] at this
            simp at this
          · intro c hc
            have := hall c hc
            rw [List.lookup_append] at this
            cases hl : links.lookup c with
            | none => rfl
            | some v => rw [hl] at this; simp at this
        · rintro ⟨hr, ⟨hnm, hnd⟩, _, hall⟩
          refine ⟨hr, hnd, ?_⟩
          intro c hc
          rw [lookup_append_of_none (hall c hc)]
          have hne : c ≠ d := by
            intro h
            subst h
            exact hnm hc
          have hb : (c == d) = false := by simpa using hne
          simp [List.lookup_cons, hb]

theorem registerUsers_error {parent : Option CallInst} :
    ∀ {us : List User} {nl : CI_list} {links : LinkMap} {v : Violation},
      registerUsers parent us nl links = .error v → v = Violation.duplicateLink := by
  intro us
  induction us with
  | nil => intro nl links v h; simp [registerUsers] at h
  | cons u us ih =>
    intro nl links v h
    cases u with
    | other n => exact ih (by simpa [registerUsers] using h)
    | call d =>
      simp only [registerUsers] at h
      cases hte : try_emplace links d parent with
      | none => rw [hte] at h; simp at h; exact h.symm
      | some links2 => rw [hte] at h; exact ih h

theorem fresh_nil (links : LinkMap) : Fresh links [] := by
  simp [Fresh]

theorem fresh_append {links es1 es2 : LinkMap} :
    Fresh links (es1 ++ es2) ↔ (Fresh links es1 ∧ Fresh (links ++ es1) es2) := by
  unfold Fresh
  simp only [List.map_append, List.nodup_append, List.mem_append]
  constructor
  · rintro ⟨⟨h1, h2, hd⟩, hall⟩
    refine ⟨⟨h1, fun c hc => hall c (Or.inl hc)⟩, h2, ?_⟩
    intro c hc
    rw [lookup_append_of_none (hall c (Or.inr hc))]
    rw [lookup_eq_none_iff_not_mem_keys]
    intro hc1
    exact hd hc1 hc
  · rintro ⟨⟨h1, hall1⟩, h2, hall2⟩
    refine ⟨⟨h1, h2, ?_⟩, ?_⟩
    · intro c hc1 hc2
      have h := hall2 c hc2
      rw [lookup_append_of_none (hall1 c hc1), lookup_eq_none_iff_not_mem_keys] at h
      exact h hc1
    · intro c hc
      rcases hc with hc | hc
      · exact hall1 c hc
      · have h := hall2 c hc
        rw [List.lookup_append] at h
        cases hl : links.lookup c with
        | none => rfl
        | some v => rw [hl] at h; simp at h

theorem keys_map_pair (p : Option CallInst) (l : CI_list) :
    (l.map (fun U => (U, p))).map Prod.fst = l := by
  induction l with
  | nil => rfl
  | cons x xs ih => simp [ih]

/-- The loop over one use-list, in terms of `Fresh`. -/
theorem registerUsers_ok_iff_fresh (parent : Option CallInst) (us : List User)
    (nl : CI_list) (links : LinkMap) (r : CI_list × LinkMap) :
    registerUsers parent us nl links = .ok r ↔
      (r = (nl ++ callUsers us, links ++ (callUsers us).map (fun U => (U, parent))) ∧
        Fresh links ((callUsers us).map (fun U => (U, parent)))) := by
  rw [registerUsers_ok_iff]
  unfold Fresh
  rw [keys_map_pair]

/-- Result of the loop over the expanded level: it succeeds exactly when the
discovered entries are fresh, and then appends them to the map and their keys to
the new level. -/
theorem expandLevel_ok_iff (M : Module) :
    ∀ (level nl : CI_list) (links : LinkMap) (r : CI_list × LinkMap),
      expandLevel M level nl links = .ok r ↔
        (r = (nl ++ (discovered M level).map Prod.fst, links ++ discovered M level) ∧
          Fresh links (discovered M level)) := by
  intro level
  induction level with
  | nil =>
    intro nl links r
    simp only [expandLevel, discovered, List.map_nil, List.append_nil]
    constructor
    · intro h
      cases h
      exact ⟨rfl, fresh_nil _⟩
    · rintro ⟨h, _⟩
      rw [h]
  | cons I rest ih =>
    intro nl links r
    simp only [expandLevel, discovered]
    cases hreg : registerUsers (some I) (M.users I.getFunction) nl links with
    | error v =>
      constructor
      · intro h
        cases h
      · rintro ⟨_, hf⟩
        have h1 := (fresh_append.1 hf).1
        have := (registerUsers_ok_iff_fresh (some I) (M.users I.getFunction) nl links _).2
          ⟨rfl, h1⟩
        rw [hreg] at this
        cases this
    | ok r1 =>
      obtain ⟨hr1, hf1⟩ := (registerUsers_ok_iff_fresh _ _ _ _ _).1 hreg
      subst hr1
      simp only
      rw [ih, fresh_append]
      simp only [List.map_append, keys_map_pair, List.append_assoc]
      constructor
      · rintro ⟨hr, hf2⟩
        exact ⟨hr, hf1, hf2⟩
      · rintro ⟨hr, _, hf2⟩
        exact ⟨hr, hf2⟩

theorem expandLevel_error {M : Module} :
    ∀ {level nl : CI_list} {links : LinkMap} {v : Violation},
      expandLevel M level nl links = .error v → v = Violation.duplicateLink := by
  intro level
  induction level with
  | nil => intro nl links v h; simp [expandLevel] at h
  | cons I rest ih =>
    intro nl links v h
    simp only [expandLevel] at h
    cases hreg : registerUsers (some I) (M.users I.getFunction) nl links with
    | error w =>
      rw [hreg] at h
      simp only [Except.error.injEq] at h
      subst h
      exact registerUsers_error hreg
    | ok r1 =>
      rw [hreg] at h
      exact ih h

theorem mem_discovered {M : Module} {U : CallInst} {p : Option CallInst} :
    ∀ {level : CI_list}, (U, p) ∈ discovered M level ↔
      ∃ I ∈ level, p = some I ∧ User.call U ∈ M.users I.getFunction := by
  intro level
  induction level with
  | nil => simp [discovered]
  | cons J rest ih =>
    simp only [discovered, List.mem_append, List.mem_map, Prod.mk.injEq, ih, List.mem_cons,
      exists_eq_or_imp]
    constructor
    · rintro (⟨c, hc, rfl, rfl⟩ | h)
      · exact Or.inl ⟨rfl, mem_callUsers.1 hc⟩
      · exact Or.inr h
    · rintro (⟨rfl, h⟩ | h)
      · exact Or.inl ⟨U, mem_callUsers.2 h, rfl, rfl⟩
      · exact Or.inr h

/-- What a successful call of `levelUpCallerGraph` does: it appends fresh entries
to the map, returns their keys sorted, and records the end of `graph`; the
entries are the call users of `root` without back-link when `graph` is empty,
and otherwise the entries discovered from the part of `graph` behind the last
recorded boundary. -/
theorem levelUpCallerGraph_ok {M : Module} {root : Nat} {graph : CI_list}
    {links : LinkMap} {levels : List Nat}
    {new_level : CI_list} {links2 : LinkMap} {levels2 : List Nat}
    (h : levelUpCallerGraph M root graph links levels = .ok (new_level, links2, levels2)) :
    ∃ es : LinkMap, links2 = links ++ es ∧ Fresh links es ∧
      new_level = sortByFunction (es.map Prod.fst) ∧
      levels2 = levels ++ [graph.length] ∧
      ((graph = [] ∧ links = [] ∧ levels = [] ∧
          es = (callUsers (M.users root)).map (fun U => (U, none))) ∨
        (graph ≠ [] ∧ ∃ lb, levels.getLast? = some lb ∧ lb ≠ graph.length ∧
          es = discovered M (graph.drop lb))) := by
  unfold levelUpCallerGraph at h
  by_cases hg : graph = []
  · subst hg
    simp only [List.isEmpty_nil, if_true] at h
    cases links with
    | cons e l => simp at h
    | nil =>
      cases levels with
      | cons e l => simp at h
      | nil =>
        simp only [List.isEmpty_nil, Bool.not_true, Bool.false_eq_true, if_false] at h
        cases hreg : registerUsers none (M.users root) [] [] with
        | error v => rw [hreg] at h; cases h
        | ok r =>
          rw [hreg] at h
          obtain ⟨hr, hf⟩ := (registerUsers_ok_iff_fresh _ _ _ _ _).1 hreg
          subst hr
          simp only [List.nil_append, Except.ok.injEq, Prod.mk.injEq] at h
          obtain ⟨h1, h2, h3⟩ := h
          refine ⟨_, ?_, hf, ?_, h3.symm, Or.inl ⟨rfl, rfl, rfl, rfl⟩⟩
          · rw [← h2]; rfl
          · rw [← h1, keys_map_pair]
  · have hge : graph.isEmpty = false := by
      cases graph with
      | nil => exact absurd rfl hg
      | cons a l => rfl
    simp only [hge, Bool.false_eq_true, if_false] at h
    cases hlast : levels.getLast? with
    | none => rw [hlast] at h; cases h
    | some lb =>
      rw [hlast] at h
      simp only at h
      by_cases hlb : lb = graph.length
      · simp [hlb] at h
      · simp only [hlb, if_false] at h
        cases hexp : expandLevel M (graph.drop lb) [] links with
        | error v => rw [hexp] at h; cases h
        | ok r =>
          rw [hexp] at h
          obtain ⟨hr, hf⟩ := (expandLevel_ok_iff M _ _ _ _).1 hexp
          subst hr
          simp only [List.nil_append, Except.ok.injEq, Prod.mk.injEq] at h
          obtain ⟨h1, h2, h3⟩ := h
          exact ⟨_, h2.symm, hf, h1.symm, h3.symm, Or.inr ⟨hg, lb, rfl, hlb, rfl⟩⟩

/-- C9: on an empty accumulated list, an empty back-link map and no level
boundaries, `levelUpCallerGraph` returns whenever the call instructions in the
use-list of the marker are pairwise distinct, and what it returns is a sorted
frontier that holds exactly the call instructions that use the marker, each
once, together with a map whose keys are exactly these call instructions, each
mapped to the null back-link. -/
theorem levelUpCallerGraph_first_level (M : Module) (root : Nat) :
    ((callUsers (M.users root)).Nodup →
      ∃ r, levelUpCallerGraph M root [] [] [] = .ok r) ∧
    ∀ (new_level : CI_list) (links : LinkMap) (levels : List Nat),
      levelUpCallerGraph M root [] [] [] = .ok (new_level, links, levels) →
        (∀ c, c ∈ new_level ↔ User.call c ∈ M.users root) ∧
        new_level.Nodup ∧ SortedByFunction new_level ∧
        (∀ c, User.call c ∈ M.users root → links.lookup c = some none) ∧
        (∀ c, ¬ User.call c ∈ M.users root → links.lookup c = none) ∧
        (links.map Prod.fst).Nodup ∧ levels = [0] := by
  constructor
  · intro hnd
    have hf : Fresh [] ((callUsers (M.users root)).map (fun U => (U, none))) := by
      unfold Fresh
      rw [keys_map_pair]
      exact ⟨hnd, fun c _ => rfl⟩
    have hreg := (registerUsers_ok_iff_fresh none (M.users root) [] [] _).2 ⟨rfl, hf⟩
    refine ⟨(sortByFunction ([] ++ callUsers (M.users root)),
      [] ++ (callUsers (M.users root)).map (fun U => (U, none)), [] ++ [0]), ?_⟩
    unfold levelUpCallerGraph
    simp only [List.isEmpty_nil, if_true, Bool.not_true, Bool.false_eq_true, if_false]
    rw [hreg]
    rfl
  · intro new_level links levels h
    obtain ⟨es, hl, hf, hnew, hlev, hcase⟩ := levelUpCallerGraph_ok h
    rcases hcase with ⟨_, _, _, hes⟩ | ⟨hg, _⟩
    · subst hes
      rw [keys_map_pair] at hnew
      have hnd : (callUsers (M.users root)).Nodup := by
        have := hf.1
        rwa [keys_map_pair] at this
      simp only [List.nil_append] at hl
      refine ⟨?_, ?_, ?_, ?_, ?_, ?_, ?_⟩
      · intro c
        rw [hnew, mem_sortByFunction, mem_callUsers]
      · rw [hnew]
        exact (sortByFunction_perm _).nodup_iff.2 hnd
      · rw [hnew]
        exact sortByFunction_sorted _
      · intro c hc
        rw [hl]
        refine lookup_of_mem_of_nodup hf.1 ?_
        exact List.mem_map.2 ⟨c, mem_callUsers.2 hc, rfl⟩
      · intro c hc
        rw [hl, lookup_eq_none_iff_not_mem_keys, keys_map_pair, mem_callUsers]
        exact hc
      · rw [hl]
        exact hf.1
      · simpa using hlev
    · exact absurd rfl hg

/-- Witness for C9: the begin marker of Scenario C, used by two call
instructions. -/
theorem levelUpCallerGraph_first_level_witness :
    (callUsers (scenarioC.users 1)).Nodup ∧
    (∃ r, levelUpCallerGraph scenarioC 1 [] [] [] = .ok r) ∧
    levelUpCallerGraph scenarioC 1 [] [] [] =
      .ok ([⟨10, 3⟩, ⟨11, 3⟩], [(⟨10, 3⟩, none), (⟨11, 3⟩, none)], [0]) ∧
    ((∀ c, c ∈ [(⟨10, 3⟩ : CallInst), ⟨11, 3⟩] ↔ User.call c ∈ scenarioC.users 1) ∧
      [(⟨10, 3⟩ : CallInst), ⟨11, 3⟩].Nodup ∧
      SortedByFunction [⟨10, 3⟩, ⟨11, 3⟩] ∧
      (∀ c, User.call c ∈ scenarioC.users 1 →
        List.lookup c [((⟨10, 3⟩ : CallInst), (none : Option CallInst)), (⟨11, 3⟩, none)] =
          some none) ∧
      (∀ c, ¬ User.call c ∈ scenarioC.users 1 →
        List.lookup c [((⟨10, 3⟩ : CallInst), (none : Option CallInst)), (⟨11, 3⟩, none)] =
          none) ∧
      ([((⟨10, 3⟩ : CallInst), (none : Option CallInst)), (⟨11, 3⟩, none)].map Prod.fst).Nodup ∧
      [0] = [0]) :=
  ⟨by decide, (levelUpCallerGraph_first_level scenarioC 1).1 (by decide), rfl,
    (levelUpCallerGraph_first_level scenarioC 1).2 _ _ _ rfl⟩

/-! ### One round of the search, taken apart -/

/-- A round that completes consists of two successful level expansions, the
merge, the walks for every candidate, and the two splices. -/
theorem searchRound_done {M : Module} {txBegin txCommit : Nat} {st st2 : PassState}
    {e : Bool} (h : searchRound M txBegin txCommit st = .done (st2, e)) :
    ∃ new_blevel blinks blevels new_clevel clinks clevels st1,
      levelUpCallerGraph M txBegin st.txBeginCallers st.txBeginCallees
        st.txBeginCallerLevels = .ok (new_blevel, blinks, blevels) ∧
      levelUpCallerGraph M txCommit st.txCommitCallers st.txCommitCallees
        st.txCommitCallerLevels = .ok (new_clevel, clinks, clevels) ∧
      pairCandidates (diffCallerGraphs new_blevel new_clevel).1
        (afterLevelUp st blinks blevels clinks clevels) = .done st1 ∧
      st2 = { st1 with
        txCommitCallers := st1.txCommitCallers ++ (diffCallerGraphs new_blevel new_clevel).2.2,
        txCommitCallerLevels := st1.txCommitCallerLevels.map
          (afterSplice st1.txCommitCallers.length
            (st1.txCommitCallers ++ (diffCallerGraphs new_blevel new_clevel).2.2).length),
        txBeginCallers := st1.txBeginCallers ++ (diffCallerGraphs new_blevel new_clevel).2.1,
        txBeginCallerLevels := st1.txBeginCallerLevels.map
          (afterSplice st1.txBeginCallers.length
            (st1.txBeginCallers ++ (diffCallerGraphs new_blevel new_clevel).2.1).length) } ∧
      e = ((diffCallerGraphs new_blevel new_clevel).2.1.isEmpty &&
        (diffCallerGraphs new_blevel new_clevel).2.2.isEmpty) := by
  unfold searchRound at h
  cases hb : levelUpCallerGraph M txBegin st.txBeginCallers st.txBeginCallees
      st.txBeginCallerLevels with
  | error v => rw [hb] at h; cases h
  | ok rb =>
    obtain ⟨new_blevel, blinks, blevels⟩ := rb
    rw [hb] at h
    simp only at h
    cases hc : levelUpCallerGraph M txCommit st.txCommitCallers st.txCommitCallees
        st.txCommitCallerLevels with
    | error v => rw [hc] at h; cases h
    | ok rc =>
      obtain ⟨new_clevel, clinks, clevels⟩ := rc
      rw [hc] at h
      simp only at h
      cases hp : pairCandidates (diffCallerGraphs new_blevel new_clevel).1
          (afterLevelUp st blinks blevels clinks clevels) with
      | violation v => simp only [afterLevelUp] at hp; rw [hp] at h; cases h
      | diverge => simp only [afterLevelUp] at hp; rw [hp] at h; cases h
      | done st1 =>
        have hp2 := hp
        simp only [afterLevelUp] at hp2
        rw [hp2] at h
        simp only [Outcome.done.injEq, Prod.mk.injEq] at h
        exact ⟨new_blevel, blinks, blevels, new_clevel, clinks, clevels, st1,
          rfl, rfl, hp, h.1.symm, h.2.symm⟩

/-- The walks leave everything but the two lists of chains as it is, and add
one chain to each list per candidate. -/
theorem pairCandidates_done :
    ∀ {cands : CI_list} {st st1 : PassState}, pairCandidates cands st = .done st1 →
      st1.txBeginCallers = st.txBeginCallers ∧ st1.txBeginCallees = st.txBeginCallees ∧
      st1.txBeginCallerLevels = st.txBeginCallerLevels ∧
      st1.txCommitCallers = st.txCommitCallers ∧ st1.txCommitCallees = st.txCommitCallees ∧
      st1.txCommitCallerLevels = st.txCommitCallerLevels ∧
      ∃ bs cs : List (List CallInst), bs.length = cands.length ∧ cs.length = cands.length ∧
        st1.pairedTxBegin = st.pairedTxBegin ++ bs ∧
        st1.pairedTxCommit = st.pairedTxCommit ++ cs ∧
        ∀ p ∈ bs.zip cs, ∃ C ∈ cands,
          walkLinks st.txBeginCallees Violation.beginLinkMissing
            (st.txBeginCallees.length + 1) C [] = .done p.1 ∧
          walkLinks st.txCommitCallees Violation.commitLinkMissing
            (st.txCommitCallees.length + 1) C [] = .done p.2 := by
  intro cands
  induction cands with
  | nil =>
    intro st st1 h
    simp only [pairCandidates, Outcome.done.injEq] at h
    subst h
    exact ⟨rfl, rfl, rfl, rfl, rfl, rfl, [], [], rfl, rfl, by simp, by simp, by simp⟩
  | cons C rest ih =>
    intro st st1 h
    simp only [pairCandidates] at h
    cases hb : walkLinks st.txBeginCallees Violation.beginLinkMissing
        (st.txBeginCallees.length + 1) C [] with
    | violation v => rw [hb] at h; cases h
    | diverge => rw [hb] at h; cases h
    | done bstrand =>
      rw [hb] at h
      simp only at h
      cases hc : walkLinks st.txCommitCallees Violation.commitLinkMissing
          (st.txCommitCallees.length + 1) C [] with
      | violation v => rw [hc] at h; cases h
      | diverge => rw [hc] at h; cases h
      | done cstrand =>
        rw [hc] at h
        simp only at h
        obtain ⟨h1, h2, h3, h4, h5, h6, bs, cs, hbl, hcl, hbs, hcs, hall⟩ := ih h
        simp only at h1 h2 h3 h4 h5 h6 hbs hcs hall
        refine ⟨h1, h2, h3, h4, h5, h6, bstrand :: bs, cstrand :: cs, by simp [hbl],
          by simp [hcl], by simp [hbs], by simp [hcs], ?_⟩
        intro p hp
        simp only [List.zip_cons_cons, List.mem_cons] at hp
        rcases hp with rfl | hp
        · exact ⟨C, List.mem_cons_self _ _, hb, hc⟩
        · obtain ⟨C2, hC2, hw⟩ := hall p hp
          exact ⟨C2, List.mem_cons_of_mem _ hC2, hw⟩

/-- A walk that ends returns a chain whose first element is the first element
pushed and whose last element has a null back-link. -/
theorem walkLinks_done {links : LinkMap} {missing : Violation} :
    ∀ {fuel : Nat} {C : CallInst} {strand chain : List CallInst},
      walkLinks links missing fuel C strand = .done chain →
        chain.head? = (strand ++ [C]).head? ∧
        ∃ last, chain.getLast? = some last ∧ links.lookup last = some none := by
  intro fuel
  induction fuel with
  | zero => intro C strand chain h; simp [walkLinks] at h
  | succ n ih =>
    intro C strand chain h
    simp only [walkLinks] at h
    cases hl : links.lookup C with
    | none => rw [hl] at h; cases h
    | some p =>
      rw [hl] at h
      cases p with
      | none =>
        simp only [Outcome.done.injEq] at h
        subst h
        exact ⟨rfl, C, by simp, hl⟩
      | some parent =>
        simp only at h
        obtain ⟨h1, h2⟩ := ih h
        refine ⟨?_, h2⟩
        rw [h1]
        cases strand <;> simp

/-! ### Anchoring of the chains -/

theorem levelUpCallerGraph_lookup_mono {M : Module} {root : Nat} {graph : CI_list}
    {links : LinkMap} {levels : List Nat}
    {new_level : CI_list} {links2 : LinkMap} {levels2 : List Nat}
    (h : levelUpCallerGraph M root graph links levels = .ok (new_level, links2, levels2))
    {c : CallInst} {v : Option CallInst} (hc : links.lookup c = some v) :
    links2.lookup c = some v := by
  obtain ⟨es, hl, _⟩ := levelUpCallerGraph_ok h
  rw [hl]
  exact lookup_append_of_some hc

theorem levelUpCallerGraph_rootsUse {M : Module} {root : Nat} {graph : CI_list}
    {links : LinkMap} {levels : List Nat}
    {new_level : CI_list} {links2 : LinkMap} {levels2 : List Nat}
    (h : levelUpCallerGraph M root graph links levels = .ok (new_level, links2, levels2))
    (hr : RootsUse M root links) : RootsUse M root links2 := by
  obtain ⟨es, hl, hf, _, _, hcase⟩ := levelUpCallerGraph_ok h
  intro c hc
  rw [hl] at hc
  cases hlk : links.lookup c with
  | some v =>
    rw [lookup_append_of_some hlk] at hc
    cases hc
    exact hr c hlk
  | none =>
    rw [lookup_append_of_none hlk] at hc
    have hmem := mem_of_lookup_eq_some hc
    rcases hcase with ⟨_, _, _, hes⟩ | ⟨_, lb, _, _, hes⟩
    · rw [hes] at hmem
      obtain ⟨U, hU, hUc⟩ := List.mem_map.1 hmem
      simp only [Prod.mk.injEq, and_true] at hUc
      subst hUc
      exact mem_callUsers.1 hU
    · rw [hes] at hmem
      obtain ⟨I, _, hI, _⟩ := mem_discovered.1 hmem
      cases hI

theorem PairAnchored.mono {M : Module} {txBegin txCommit : Nat} {st st2 : PassState}
    {p : List CallInst × List CallInst}
    (hb : ∀ c v, st.txBeginCallees.lookup c = some v → st2.txBeginCallees.lookup c = some v)
    (hc : ∀ c v, st.txCommitCallees.lookup c = some v → st2.txCommitCallees.lookup c = some v)
    (h : PairAnchored M txBegin txCommit st p) : PairAnchored M txBegin txCommit st2 p := by
  obtain ⟨C, lastB, lastC, h1, h2, h3, h4, h5, h6, h7, h8⟩ := h
  exact ⟨C, lastB, lastC, h1, h2, h3, h4, h5, hb _ _ h6, h7, hc _ _ h8⟩

theorem searchRound_anchoredInv {M : Module} {txBegin txCommit : Nat} {st st2 : PassState}
    {e : Bool} (h : searchRound M txBegin txCommit st = .done (st2, e))
    (hinv : AnchoredInv M txBegin txCommit st) : AnchoredInv M txBegin txCommit st2 := by
  obtain ⟨nb, blinks, blevels, nc, clinks, clevels, st1, hlb, hlc, hpc, hst2, _⟩ :=
    searchRound_done h
  obtain ⟨hlen, hpairs, hrb, hrc⟩ := hinv
  obtain ⟨_, f2, _, _, f5, _, bs, cs, hbl, hcl, hbs, hcs, hall⟩ := pairCandidates_done hpc
  simp only [afterLevelUp] at f2 f5 hbs hcs hall
  have hrb2 := levelUpCallerGraph_rootsUse hlb hrb
  have hrc2 := levelUpCallerGraph_rootsUse hlc hrc
  subst hst2
  refine ⟨?_, ?_, ?_, ?_⟩
  · simp only [hbs, hcs, List.length_append, hlen, hbl, hcl]
  · intro p hp
    simp only [PassState.pairs, hbs, hcs] at hp
    rw [List.zip_append hlen] at hp
    rcases List.mem_append.1 hp with hp | hp
    · have hold := hpairs p hp
      refine PairAnchored.mono ?_ ?_ hold
      · intro c v hcv
        simp only [f2]
        exact levelUpCallerGraph_lookup_mono hlb hcv
      · intro c v hcv
        simp only [f5]
        exact levelUpCallerGraph_lookup_mono hlc hcv
    · obtain ⟨C, _, hwb, hwc⟩ := hall p hp
      obtain ⟨hb1, lastB, hb2, hb3⟩ := walkLinks_done hwb
      obtain ⟨hc1, lastC, hc2, hc3⟩ := walkLinks_done hwc
      refine ⟨C, lastB, lastC, by simpa using hb1, by simpa using hc1, hb2, hc2,
        hrb2 _ hb3, ?_, hrc2 _ hc3, ?_⟩
      · simp only [f2]; exact hb3
      · simp only [f5]; exact hc3
  · simp only [f2]; exact hrb2
  · simp only [f5]; exact hrc2

theorem searchLoop_anchoredInv {M : Module} {txBegin txCommit : Nat} :
    ∀ {rounds : Nat} {st st2 : PassState},
      searchLoop M txBegin txCommit rounds st = .done st2 →
      AnchoredInv M txBegin txCommit st → AnchoredInv M txBegin txCommit st2 := by
  intro rounds
  induction rounds with
  | zero => intro st st2 h; simp [searchLoop] at h
  | succ n ih =>
    intro st st2 h hinv
    simp only [searchLoop] at h
    cases hr : searchRound M txBegin txCommit st with
    | violation v => rw [hr] at h; cases h
    | diverge => rw [hr] at h; cases h
    | done r =>
      obtain ⟨st1, e⟩ := r
      rw [hr] at h
      simp only at h
      have hinv1 := searchRound_anchoredInv hr hinv
      cases e with
      | true =>
        simp only [if_true, Outcome.done.injEq] at h
        subst h
        exact hinv1
      | false =>
        simp only [Bool.false_eq_true, if_false] at h
        exact ih h hinv1

theorem anchoredInv_init (M : Module) (txBegin txCommit : Nat) :
    AnchoredInv M txBegin txCommit PassState.init := by
  refine ⟨rfl, ?_, ?_, ?_⟩
  · intro p hp
    simp [PassState.pairs, PassState.init] at hp
  · intro c hc
    simp [PassState.init] at hc
  · intro c hc
    simp [PassState.init] at hc

theorem checkFinal_done {st st2 : PassState} (h : checkFinal st = .done st2) : st2 = st := by
  unfold checkFinal at h
  split at h
  · split at h
    · simp only [Outcome.done.injEq] at h
      exact h.symm
    · cases h
  · cases h

/-- C4: in every pair of chains of a run that finishes, the two chains start
with the same call instruction, the begin chain ends in a call instruction that
uses the begin marker and has the null back-link in `txBeginCallees`, and the
commit chain ends in a call instruction that uses the commit marker and has the
null back-link in `txCommitCallees`. -/
theorem runOnModule_pairs_anchored (rounds : Nat) (M : Module) (st : PassState)
    (h : runOnModule rounds M = .done st) :
    ∀ p ∈ st.pairs, ∃ txBegin txCommit,
      M.xbegin = some txBegin ∧ M.xend = some txCommit ∧
      ∃ C lastB lastC, p.1.head? = some C ∧ p.2.head? = some C ∧
        p.1.getLast? = some lastB ∧ p.2.getLast? = some lastC ∧
        User.call lastB ∈ M.users txBegin ∧
        st.txBeginCallees.lookup lastB = some none ∧
        User.call lastC ∈ M.users txCommit ∧
        st.txCommitCallees.lookup lastC = some none := by
  unfold runOnModule at h
  cases hb : M.xbegin with
  | none =>
    rw [hb] at h
    simp only [Outcome.done.injEq] at h
    subst h
    intro p hp
    simp [PassState.pairs, PassState.init] at hp
  | some txBegin =>
    rw [hb] at h
    simp only at h
    cases hc : M.xend with
    | none => rw [hc] at h; cases h
    | some txCommit =>
      rw [hc] at h
      simp only at h
      cases hs : searchLoop M txBegin txCommit rounds PassState.init with
      | violation v => rw [hs] at h; cases h
      | diverge => rw [hs] at h; cases h
      | done st1 =>
        rw [hs] at h
        simp only at h
        have heq := checkFinal_done h
        subst heq
        have hinv := searchLoop_anchoredInv hs (anchoredInv_init M txBegin txCommit)
        intro p hp
        exact ⟨txBegin, txCommit, rfl, rfl, hinv.2.1 p hp⟩

/-! ### Walks end -/

theorem walkLinks_fuel_mono {links : LinkMap} {missing : Violation} :
    ∀ {n : Nat} {c : CallInst} {s ch : List CallInst},
      walkLinks links missing n c s = .done ch →
      ∀ m, n ≤ m → walkLinks links missing m c s = .done ch := by
  intro n
  induction n with
  | zero => intro c s ch h; simp [walkLinks] at h
  | succ n ih =>
    intro c s ch h m hm
    obtain ⟨m, rfl⟩ : ∃ k, m = k + 1 := ⟨m - 1, by omega⟩
    simp only [walkLinks] at h ⊢
    cases hl : links.lookup c with
    | none => rw [hl] at h; cases h
    | some p =>
      rw [hl] at h
      cases p with
      | none => exact h
      | some parent => exact ih h m (by omega)

theorem walkLinks_ext {l l2 : LinkMap} {missing : Violation}
    (hext : ∀ c v, l.lookup c = some v → l2.lookup c = some v) :
    ∀ {n : Nat} {c : CallInst} {s ch : List CallInst},
      walkLinks l missing n c s = .done ch → walkLinks l2 missing n c s = .done ch := by
  intro n
  induction n with
  | zero => intro c s ch h; simp [walkLinks] at h
  | succ n ih =>
    intro c s ch h
    simp only [walkLinks] at h ⊢
    cases hl : l.lookup c with
    | none => rw [hl] at h; cases h
    | some p =>
      rw [hl] at h
      rw [hext c p hl]
      cases p with
      | none => exact h
      | some parent => exact ih h

theorem walksEnd_nil : WalksEnd [] := by
  intro c hc
  simp at hc

/-- Appending entries whose back-links are null or keys of the old map
keeps all walks finite. -/
theorem walksEnd_append {links es : LinkMap} (hw : WalksEnd links)
    (hp : ∀ e ∈ es, ∀ I, e.2 = some I → links.lookup I ≠ none) :
    WalksEnd (links ++ es) := by
  intro c hc missing s
  have hext : ∀ c v, links.lookup c = some v → (links ++ es).lookup c = some v :=
    fun c v h => lookup_append_of_some h
  cases hl : links.lookup c with
  | some v =>
    obtain ⟨ch, hch⟩ := hw c (by rw [hl]; simp) missing s
    exact ⟨ch, walkLinks_fuel_mono (walkLinks_ext hext hch) _ (by simp)⟩
  | none =>
    have hlk : (links ++ es).lookup c = es.lookup c := lookup_append_of_none hl
    cases hes : es.lookup c with
    | none => rw [hlk, hes] at hc; exact absurd rfl hc
    | some p =>
      have hmem := mem_of_lookup_eq_some hes
      have hlen : (links ++ es).length = (links.length + (es.length - 1)) + 1 := by
        have : 0 < es.length := List.length_pos_of_mem hmem
        simp only [List.length_append]
        omega
      rw [hlen]
      simp only [walkLinks, hlk, hes]
      cases p with
      | none => exact ⟨_, rfl⟩
      | some I =>
        simp only
        obtain ⟨ch, hch⟩ := hw I (hp _ hmem I rfl) missing (s ++ [c])
        exact ⟨ch, walkLinks_fuel_mono (walkLinks_ext hext hch) _ (by omega)⟩

/-- With the fuel that `pairCandidates` gives it, a walk over a map whose walks
end does not run out of fuel. -/
theorem walkLinks_ne_diverge {links : LinkMap} (hw : WalksEnd links) (missing : Violation)
    (C : CallInst) :
    walkLinks links missing (links.length + 1) C [] ≠ .diverge := by
  cases hl : links.lookup C with
  | none => simp [walkLinks, hl]
  | some p =>
    obtain ⟨ch, hch⟩ := hw C (by rw [hl]; simp) missing []
    rw [walkLinks_fuel_mono hch _ (Nat.le_succ _)]
    simp

theorem pairCandidates_ne_diverge :
    ∀ (cands : CI_list) (st : PassState), WalksEnd st.txBeginCallees →
      WalksEnd st.txCommitCallees → pairCandidates cands st ≠ .diverge := by
  intro cands
  induction cands with
  | nil => intro st _ _; simp [pairCandidates]
  | cons C rest ih =>
    intro st hb hc
    simp only [pairCandidates]
    cases hwb : walkLinks st.txBeginCallees Violation.beginLinkMissing
        (st.txBeginCallees.length + 1) C [] with
    | violation v => simp
    | diverge => exact absurd hwb (walkLinks_ne_diverge hb _ C)
    | done bstrand =>
      simp only
      cases hwc : walkLinks st.txCommitCallees Violation.commitLinkMissing
          (st.txCommitCallees.length + 1) C [] with
      | violation v => simp
      | diverge => exact absurd hwc (walkLinks_ne_diverge hc _ C)
      | done cstrand =>
        simp only
        exact ih _ hb hc

/-! ### What a level expansion keeps and what it gains -/

theorem lookup_ne_none_of_mem {l : LinkMap} {e : CallInst × Option CallInst}
    (h : e ∈ l) : l.lookup e.1 ≠ none := by
  rw [Ne, lookup_eq_none_iff_not_mem_keys, not_not]
  exact List.mem_map.2 ⟨e, h, rfl⟩

theorem exists_mem_of_lookup_ne_none {l : LinkMap} {c : CallInst}
    (h : l.lookup c ≠ none) : ∃ p, (c, p) ∈ l := by
  cases hl : l.lookup c with
  | none => exact absurd hl h
  | some p => exact ⟨p, mem_of_lookup_eq_some hl⟩

/-- The entries that a successful level expansion appends, described without
reference to the branch taken. -/
theorem levelUpCallerGraph_entries {M : Module} {root : Nat} {graph : CI_list}
    {links : LinkMap} {levels : List Nat}
    {new_level : CI_list} {links2 : LinkMap} {levels2 : List Nat}
    (h : levelUpCallerGraph M root graph links levels = .ok (new_level, links2, levels2)) :
    ∃ es : LinkMap, links2 = links ++ es ∧ Fresh links es ∧
      new_level = sortByFunction (es.map Prod.fst) ∧
      levels2 = levels ++ [graph.length] ∧
      (∀ e ∈ es, ∀ I, e.2 = some I → I ∈ graph) ∧
      (∀ e ∈ es, User.call e.1 ∈ M.users (sourceOf root e.2)) ∧
      (∀ e ∈ es, ∀ U, User.call U ∈ M.users (sourceOf root e.2) → ∃ q, (U, q) ∈ es) ∧
      (links = [] ∨ ∃ lb, levels.getLast? = some lb ∧ lb ≠ graph.length ∧
        ∀ I ∈ graph.drop lb, ∀ U, User.call U ∈ M.users I.getFunction →
          (U, some I) ∈ es) := by
  obtain ⟨es, hl, hf, hnew, hlev, hcase⟩ := levelUpCallerGraph_ok h
  refine ⟨es, hl, hf, hnew, hlev, ?_⟩
  rcases hcase with ⟨_, hlinks, _, hes⟩ | ⟨_, lb, hlast, hlb, hes⟩
  · subst hes
    refine ⟨?_, ?_, ?_, Or.inl hlinks⟩
    · intro e he I hI
      obtain ⟨U, _, rfl⟩ := List.mem_map.1 he
      cases hI
    · intro e he
      obtain ⟨U, hU, rfl⟩ := List.mem_map.1 he
      exact mem_callUsers.1 hU
    · intro e he U hU
      obtain ⟨U2, _, rfl⟩ := List.mem_map.1 he
      exact ⟨none, List.mem_map.2 ⟨U, mem_callUsers.2 hU, rfl⟩⟩
  · subst hes
    refine ⟨?_, ?_, ?_, Or.inr ⟨lb, hlast, hlb, ?_⟩⟩
    · intro e he I hI
      obtain ⟨c, p⟩ := e
      simp only at hI
      subst hI
      obtain ⟨J, hJ, hIJ, _⟩ := mem_discovered.1 he
      cases hIJ
      exact List.mem_of_mem_drop hJ
    · intro e he
      obtain ⟨c, p⟩ := e
      obtain ⟨J, _, hp, hu⟩ := mem_discovered.1 he
      subst hp
      exact hu
    · intro e he U hU
      obtain ⟨c, p⟩ := e
      obtain ⟨J, hJ, hp, _⟩ := mem_discovered.1 he
      subst hp
      exact ⟨some J, mem_discovered.2 ⟨J, hJ, rfl, hU⟩⟩
    · intro I hI U hU
      exact mem_discovered.2 ⟨I, hI, rfl, hU⟩

/-- A level expansion keeps the walks finite and makes every call instruction of
the new level a key of the map. -/
theorem levelUpCallerGraph_walksEnd {M : Module} {root : Nat} {graph : CI_list}
    {links : LinkMap} {levels : List Nat}
    {new_level : CI_list} {links2 : LinkMap} {levels2 : List Nat}
    (h : levelUpCallerGraph M root graph links levels = .ok (new_level, links2, levels2))
    (hk : KeysCover graph links) (hw : WalksEnd links) :
    WalksEnd links2 ∧ KeysCover (graph ++ new_level) links2 := by
  obtain ⟨es, hl, hf, hnew, _, hpar, _, _, _⟩ := levelUpCallerGraph_entries h
  subst hl
  refine ⟨walksEnd_append hw (fun e he I hI => hk I (hpar e he I hI)), ?_⟩
  intro c hc
  rcases List.mem_append.1 hc with hc | hc
  · cases hlk : links.lookup c with
    | none => exact absurd hlk (hk c hc)
    | some v => rw [lookup_append_of_some hlk]; simp
  · rw [hnew, mem_sortByFunction] at hc
    rw [Ne, lookup_eq_none_iff_not_mem_keys, not_not, List.map_append]
    exact List.mem_append_right _ hc

/-! ### Expanding a side whose last boundary is the end -/

/-- A side whose last recorded boundary is the end of its accumulated list
cannot be expanded: one of the assertions of lines 150, 151 and 163 fails. -/
theorem levelUpCallerGraph_exhausted {M : Module} {root : Nat} {graph : CI_list}
    {links : LinkMap} {levels : List Nat} (h : Exhausted graph levels) :
    ∃ v, levelUpCallerGraph M root graph links levels = .error v := by
  unfold Exhausted at h
  unfold levelUpCallerGraph
  cases graph with
  | nil =>
    simp only [List.isEmpty_nil, if_true]
    cases links with
    | cons e l => exact ⟨Violation.linksNotEmpty, by simp⟩
    | nil =>
      cases levels with
      | nil => simp at h
      | cons a l => exact ⟨Violation.levelsNotEmpty, by simp⟩
  | cons a l =>
    simp only [List.isEmpty_cons, Bool.false_eq_true, if_false, h, if_true]
    exact ⟨_, rfl⟩

theorem keysCover_append_sublist {graph new_level rest : CI_list} {links : LinkMap}
    (h : KeysCover (graph ++ new_level) links) (hs : rest.Sublist new_level) :
    KeysCover (graph ++ rest) links := by
  intro c hc
  apply h c
  rcases List.mem_append.1 hc with hc | hc
  · exact List.mem_append_left _ hc
  · exact List.mem_append_right _ (hs.subset hc)

/-- On a non-empty accumulated list whose last recorded boundary is the end, the
assertion that fails is that of line 163. -/
theorem levelUpCallerGraph_at_end {M : Module} {root : Nat} {graph : CI_list}
    {links : LinkMap} {levels : List Nat} (hne : graph ≠ [])
    (h : Exhausted graph levels) :
    levelUpCallerGraph M root graph links levels = .error Violation.levelBoundaryAtEnd := by
  unfold Exhausted at h
  unfold levelUpCallerGraph
  cases graph with
  | nil => exact absurd rfl hne
  | cons a l =>
    simp only [List.isEmpty_cons, Bool.false_eq_true, if_false, h, if_true]

/-- A round never runs out of fuel in its walks when the invariant holds. -/
theorem searchRound_ne_diverge {M : Module} {txBegin txCommit : Nat}
    {st : PassState} (hinv : WalkInv st) :
    searchRound M txBegin txCommit st ≠ .diverge := by
  obtain ⟨hkb, hwb, hkc, hwc⟩ := hinv
  unfold searchRound
  cases hb : levelUpCallerGraph M txBegin st.txBeginCallers st.txBeginCallees
      st.txBeginCallerLevels with
  | error v => simp
  | ok rb =>
    obtain ⟨new_blevel, blinks, blevels⟩ := rb
    simp only
    cases hc : levelUpCallerGraph M txCommit st.txCommitCallers st.txCommitCallees
        st.txCommitCallerLevels with
    | error v => simp
    | ok rc =>
      obtain ⟨new_clevel, clinks, clevels⟩ := rc
      simp only
      have hwb2 := (levelUpCallerGraph_walksEnd hb hkb hwb).1
      have hwc2 := (levelUpCallerGraph_walksEnd hc hkc hwc).1
      have hpc := pairCandidates_ne_diverge (diffCallerGraphs new_blevel new_clevel).1
        (afterLevelUp st blinks blevels clinks clevels) hwb2 hwc2
      simp only [afterLevelUp] at hpc
      cases hp : pairCandidates (diffCallerGraphs new_blevel new_clevel).1
          { st with txBeginCallees := blinks, txBeginCallerLevels := blevels,
                    txCommitCallees := clinks, txCommitCallerLevels := clevels } with
      | violation v => simp
      | diverge => exact absurd hp hpc
      | done st1 => simp

theorem runOnModule_ne_diverge_of_searchLoop {M : Module} {rounds : Nat}
    (h : ∀ txBegin txCommit, M.xbegin = some txBegin → M.xend = some txCommit →
      searchLoop M txBegin txCommit rounds PassState.init ≠ .diverge) :
    runOnModule rounds M ≠ .diverge := by
  unfold runOnModule
  cases hb : M.xbegin with
  | none => simp
  | some txBegin =>
    simp only
    cases hc : M.xend with
    | none => simp
    | some txCommit =>
      simp only
      cases hs : searchLoop M txBegin txCommit rounds PassState.init with
      | violation v => simp
      | diverge => exact absurd hs (h txBegin txCommit hb hc)
      | done st =>
        simp only
        unfold checkFinal
        split
        · split <;> simp
        · simp

/-! ### The merge keeps what it is given -/

/-- The intersection and the remainder of `A` hold the elements of `A`, each as
often as `A` does, and the remainder of `B` lacks as many entries of `B` as the
intersection has; for every amount of fuel. -/
theorem diffLoop_perm :
    ∀ (n : Nat) (A B : CI_list),
      ((diffLoop n A B).1 ++ (diffLoop n A B).2.1).Perm A ∧
      (diffLoop n A B).2.2.length + (diffLoop n A B).1.length = B.length := by
  intro n
  induction n with
  | zero => intro A B; simp [diffLoop]
  | succ n ih =>
    intro A B
    cases A with
    | nil => simp [diffLoop]
    | cons a A =>
      cases B with
      | nil => simp [diffLoop]
      | cons b B =>
        simp only [diffLoop]
        split
        · obtain ⟨h1, h2⟩ := ih A (b :: B)
          refine ⟨?_, h2⟩
          exact (List.perm_middle).trans (List.Perm.cons a h1)
        · split
          · obtain ⟨h1, h2⟩ := ih (a :: A) B
            refine ⟨h1, ?_⟩
            simp only [List.length_cons] at h2 ⊢
            omega
          · obtain ⟨h1, h2⟩ := ih A B
            refine ⟨List.Perm.cons a h1, ?_⟩
            simp only [List.length_cons]
            omega

/-- C13: for all frontiers `A` and `B`, every element of the intersection is an
element of `A`; the intersection and the remainder of `A` are sublists of `A`
(they keep its order) and together hold every element of `A` exactly as often
as `A` does; the remainder of `B` is a sublist of `B` that lacks exactly as many
entries as the intersection has. -/
theorem diffCallerGraphs_partitions (A B : CI_list) :
    (∀ x ∈ (diffCallerGraphs A B).1, x ∈ A) ∧
    (diffCallerGraphs A B).1.Sublist A ∧
    (diffCallerGraphs A B).2.1.Sublist A ∧
    ((diffCallerGraphs A B).1 ++ (diffCallerGraphs A B).2.1).Perm A ∧
    (diffCallerGraphs A B).1.length + (diffCallerGraphs A B).2.1.length = A.length ∧
    (diffCallerGraphs A B).2.2.Sublist B ∧
    (diffCallerGraphs A B).2.2.length + (diffCallerGraphs A B).1.length = B.length := by
  have hs : (diffCallerGraphs A B).1.Sublist A ∧
      (diffCallerGraphs A B).2.1.Sublist A ∧ (diffCallerGraphs A B).2.2.Sublist B :=
    diffLoop_sublist (A.length + B.length) A B
  have hp : ((diffCallerGraphs A B).1 ++ (diffCallerGraphs A B).2.1).Perm A ∧
      (diffCallerGraphs A B).2.2.length + (diffCallerGraphs A B).1.length = B.length :=
    diffLoop_perm (A.length + B.length) A B
  refine ⟨fun x hx => hs.1.subset hx, hs.1, hs.2.1, hp.1, ?_, hs.2.2, hp.2⟩
  have := hp.1.length_eq
  simpa using this

/-- C18: for sorted frontiers `A` and `B` and every function `f`, the
intersection has as many entries in `f` as the smaller of the numbers of entries
that `A` and `B` have in `f`; hence one of the two remainders has no entry in
`f`, and no entry of one remainder shares its function with an entry of the
other. -/
theorem diffCallerGraphs_count_min (A B : CI_list)
    (hA : SortedByFunction A) (hB : SortedByFunction B) (f : Nat) :
    countIn f (diffCallerGraphs A B).1 = min (countIn f A) (countIn f B) ∧
    (countIn f (diffCallerGraphs A B).2.1 = 0 ∨ countIn f (diffCallerGraphs A B).2.2 = 0) ∧
    ¬ ((∃ x ∈ (diffCallerGraphs A B).2.1, x.getFunction = f) ∧
        (∃ y ∈ (diffCallerGraphs A B).2.2, y.getFunction = f)) := by
  obtain ⟨h1, h2, h3⟩ := diffCallerGraphs_countIn f A B hA hB
  refine ⟨h1, ?_, ?_⟩
  · rw [h2, h3]
    omega
  · rw [← countIn_pos_iff, ← countIn_pos_iff, h2, h3]
    omega

/-- Witness for C18: three entries of `A` and two of `B` in function 3. -/
theorem diffCallerGraphs_count_min_witness :
    SortedByFunction [⟨1, 3⟩, ⟨2, 3⟩, ⟨3, 3⟩, ⟨4, 5⟩] ∧
    SortedByFunction [⟨5, 2⟩, ⟨6, 3⟩, ⟨7, 3⟩] ∧
    countIn 3 (diffCallerGraphs [⟨1, 3⟩, ⟨2, 3⟩, ⟨3, 3⟩, ⟨4, 5⟩] [⟨5, 2⟩, ⟨6, 3⟩, ⟨7, 3⟩]).1 = 2 ∧
    countIn 3 (diffCallerGraphs [⟨1, 3⟩, ⟨2, 3⟩, ⟨3, 3⟩, ⟨4, 5⟩] [⟨5, 2⟩, ⟨6, 3⟩, ⟨7, 3⟩]).1 =
      min (countIn 3 [⟨1, 3⟩, ⟨2, 3⟩, ⟨3, 3⟩, ⟨4, 5⟩]) (countIn 3 [⟨5, 2⟩, ⟨6, 3⟩, ⟨7, 3⟩]) :=
  ⟨by decide, by decide, by decide,
    (diffCallerGraphs_count_min _ _ (by decide) (by decide) 3).1⟩

/-! ### The end of the loop -/

/-- A loop that exits normally does so after a round that set `endSearch`. -/
theorem searchLoop_done_last {M : Module} {txBegin txCommit : Nat} :
    ∀ {rounds : Nat} {st st2 : PassState},
      searchLoop M txBegin txCommit rounds st = .done st2 →
      ∃ st1, searchRound M txBegin txCommit st1 = .done (st2, true) := by
  intro rounds
  induction rounds with
  | zero => intro st st2 h; simp [searchLoop] at h
  | succ n ih =>
    intro st st2 h
    simp only [searchLoop] at h
    cases hr : searchRound M txBegin txCommit st with
    | violation v => rw [hr] at h; cases h
    | diverge => rw [hr] at h; cases h
    | done r =>
      obtain ⟨st1, e⟩ := r
      rw [hr] at h
      simp only at h
      cases e with
      | true =>
        simp only [if_true, Outcome.done.injEq] at h
        subst h
        exact ⟨st, hr⟩
      | false =>
        simp only [Bool.false_eq_true, if_false] at h
        exact ih h

theorem isEmpty_eq_true_iff_nil {l : CI_list} : l.isEmpty = true ↔ l = [] := by
  cases l <;> simp

/-- What `endSearch` says and where the boundaries are after a round. -/
theorem searchRound_shape {M : Module} {txBegin txCommit : Nat} {st st2 : PassState}
    {e : Bool} (h : searchRound M txBegin txCommit st = .done (st2, e)) :
    ∃ new_blevel blinks blevels new_clevel clinks clevels,
      levelUpCallerGraph M txBegin st.txBeginCallers st.txBeginCallees
        st.txBeginCallerLevels = .ok (new_blevel, blinks, blevels) ∧
      levelUpCallerGraph M txCommit st.txCommitCallers st.txCommitCallees
        st.txCommitCallerLevels = .ok (new_clevel, clinks, clevels) ∧
      st2.txBeginCallers =
        st.txBeginCallers ++ (diffCallerGraphs new_blevel new_clevel).2.1 ∧
      st2.txCommitCallers =
        st.txCommitCallers ++ (diffCallerGraphs new_blevel new_clevel).2.2 ∧
      st2.txBeginCallees = blinks ∧ st2.txCommitCallees = clinks ∧
      st2.txBeginCallerLevels =
        (st.txBeginCallerLevels ++ [st.txBeginCallers.length]).map
          (afterSplice st.txBeginCallers.length
            (st.txBeginCallers ++ (diffCallerGraphs new_blevel new_clevel).2.1).length) ∧
      st2.txCommitCallerLevels =
        (st.txCommitCallerLevels ++ [st.txCommitCallers.length]).map
          (afterSplice st.txCommitCallers.length
            (st.txCommitCallers ++ (diffCallerGraphs new_blevel new_clevel).2.2).length) ∧
      (e = true ↔ ((diffCallerGraphs new_blevel new_clevel).2.1 = [] ∧
        (diffCallerGraphs new_blevel new_clevel).2.2 = [])) := by
  obtain ⟨nb, blinks, blevels, nc, clinks, clevels, st1, hlb, hlc, hpc, hst2, he⟩ :=
    searchRound_done h
  obtain ⟨f1, f2, f3, f4, f5, f6, _⟩ := pairCandidates_done hpc
  simp only [afterLevelUp] at f1 f2 f3 f4 f5 f6
  obtain ⟨_, _, _, _, hblev, _⟩ := levelUpCallerGraph_ok hlb
  obtain ⟨_, _, _, _, hclev, _⟩ := levelUpCallerGraph_ok hlc
  refine ⟨nb, blinks, blevels, nc, clinks, clevels, hlb, hlc, ?_, ?_, ?_, ?_, ?_, ?_, ?_⟩
  · rw [hst2]; simp only [f1]
  · rw [hst2]; simp only [f4]
  · rw [hst2]; simp only [f2]
  · rw [hst2]; simp only [f5]
  · rw [hst2]; simp only [f1, f3, hblev]
  · rw [hst2]; simp only [f4, f6, hclev]
  · rw [he, Bool.and_eq_true, isEmpty_eq_true_iff_nil, isEmpty_eq_true_iff_nil]

/-- After a round that completes, the last recorded boundary of each side is the
end of its accumulated list: the boundary was `end()` when it was recorded and is
`end()` after the splice. -/
theorem searchRound_exhausted {M : Module} {txBegin txCommit : Nat} {st st2 : PassState}
    {e : Bool} (h : searchRound M txBegin txCommit st = .done (st2, e)) :
    Exhausted st2.txBeginCallers st2.txBeginCallerLevels ∧
    Exhausted st2.txCommitCallers st2.txCommitCallerLevels := by
  obtain ⟨nb, blinks, blevels, nc, clinks, clevels, _, _, hgb, hgc, _, _, hlb, hlc, _⟩ :=
    searchRound_shape h
  unfold Exhausted
  rw [hlb, hlc, hgb, hgc]
  simp [afterSplice]

/-- No round completes after a round that completed: the expansion of the begin
side fails. -/
theorem searchRound_after_round {M : Module} {txBegin txCommit : Nat} {st st2 : PassState}
    {e : Bool} (h : searchRound M txBegin txCommit st = .done (st2, e)) :
    ∃ v, searchRound M txBegin txCommit st2 = .violation v := by
  obtain ⟨v, hv⟩ := @levelUpCallerGraph_exhausted M txBegin st2.txBeginCallers
    st2.txBeginCallees st2.txBeginCallerLevels (searchRound_exhausted h).1
  refine ⟨v, ?_⟩
  unfold searchRound
  rw [hv]

/-- A loop that exits normally does so after its first round. -/
theorem searchLoop_done_first {M : Module} {txBegin txCommit : Nat} {rounds : Nat}
    {st st2 : PassState} (h : searchLoop M txBegin txCommit rounds st = .done st2) :
    searchRound M txBegin txCommit st = .done (st2, true) := by
  cases rounds with
  | zero => simp [searchLoop] at h
  | succ n =>
    simp only [searchLoop] at h
    cases hr : searchRound M txBegin txCommit st with
    | violation v => rw [hr] at h; cases h
    | diverge => rw [hr] at h; cases h
    | done r =>
      obtain ⟨st1, e⟩ := r
      rw [hr] at h
      simp only at h
      cases e with
      | true =>
        simp only [if_true, Outcome.done.injEq] at h
        subst h
        rfl
      | false =>
        simp only [Bool.false_eq_true, if_false] at h
        obtain ⟨v, hv⟩ := searchRound_after_round hr
        cases n with
        | zero => simp [searchLoop] at h
        | succ m =>
          simp only [searchLoop, hv] at h
          cases h

/-- The loop stops within two rounds when the walks of its first round end. -/
theorem searchLoop_two_rounds {M : Module} {txBegin txCommit : Nat} {st : PassState}
    (hinv : WalkInv st) (n : Nat) :
    searchLoop M txBegin txCommit (n + 2) st ≠ .diverge := by
  simp only [searchLoop]
  cases hr : searchRound M txBegin txCommit st with
  | violation v => simp
  | diverge => exact absurd hr (searchRound_ne_diverge hinv)
  | done r =>
    obtain ⟨st1, e⟩ := r
    simp only
    cases e with
    | true => simp
    | false =>
      obtain ⟨v, hv⟩ := searchRound_after_round hr
      simp [hv]

/-- C20: when the loop that started on a fresh pass object exits normally, on
each side the last recorded boundary is the end of the accumulated list, the
two lists of chains have the same length, and the assertions of lines 96-98
pass. -/
theorem searchLoop_exit_assertions (M : Module) (txBegin txCommit rounds : Nat)
    (st : PassState)
    (h : searchLoop M txBegin txCommit rounds PassState.init = .done st) :
    st.txCommitCallerLevels.getLast? = some st.txCommitCallers.length ∧
    st.txBeginCallerLevels.getLast? = some st.txBeginCallers.length ∧
    st.pairedTxBegin.length = st.pairedTxCommit.length ∧
    checkFinal st = .done st := by
  obtain ⟨h2, h1⟩ := searchRound_exhausted (searchLoop_done_first h)
  unfold Exhausted at h1 h2
  have hlen := (searchLoop_anchoredInv h (anchoredInv_init M txBegin txCommit)).1
  refine ⟨h1, h2, hlen, ?_⟩
  unfold checkFinal
  rw [if_pos ⟨h1, h2⟩, if_pos hlen]

/-- Witness for C20: the loop exits normally after its first round when one call
instruction uses both markers, with one chain in each list, and when no call
instruction uses a marker, with none. -/
theorem searchLoop_exit_assertions_witness :
    (∃ st, searchLoop sharedCall 1 2 1 PassState.init = .done st ∧
      st.pairedTxBegin = [[⟨10, 3⟩]] ∧ st.pairedTxCommit = [[⟨10, 3⟩]] ∧
      (st.txCommitCallerLevels.getLast? = some st.txCommitCallers.length ∧
        st.txBeginCallerLevels.getLast? = some st.txBeginCallers.length ∧
        st.pairedTxBegin.length = st.pairedTxCommit.length ∧
        checkFinal st = .done st)) ∧
    (∃ st, searchLoop markersUnused 1 2 1 PassState.init = .done st ∧
      (st.txCommitCallerLevels.getLast? = some st.txCommitCallers.length ∧
        st.txBeginCallerLevels.getLast? = some st.txBeginCallers.length ∧
        st.pairedTxBegin.length = st.pairedTxCommit.length ∧
        checkFinal st = .done st)) :=
  ⟨⟨_, rfl, rfl, rfl, searchLoop_exit_assertions sharedCall 1 2 1 _ rfl⟩,
    ⟨_, rfl, searchLoop_exit_assertions markersUnused 1 2 1 _ rfl⟩⟩

/-- An expansion that returned an empty level is followed by an expansion that
fails, whatever the other side does: nothing is appended to the accumulated
list, so the boundary just recorded is its end. -/
theorem levelUpCallerGraph_after_empty {M : Module} {root : Nat} {graph : CI_list}
    {links links2 : LinkMap} {levels levels2 : List Nat}
    (h : levelUpCallerGraph M root graph links levels = .ok ([], links2, levels2)) :
    ∃ v, levelUpCallerGraph M root (graph ++ []) links2 levels2 = .error v := by
  obtain ⟨_, _, _, _, hlev, _⟩ := levelUpCallerGraph_ok h
  apply levelUpCallerGraph_exhausted
  unfold Exhausted
  rw [hlev]
  simp

/-! ### Duplicate registration -/

theorem fresh_singleton {links : LinkMap} {e : CallInst × Option CallInst} :
    Fresh links [e] ↔ links.lookup e.1 = none := by
  simp [Fresh]

/-- The entries are not fresh exactly when one of them has a key that the map
holds at the moment the entry is reached. -/
theorem not_fresh_iff :
    ∀ (es links : LinkMap), ¬ Fresh links es ↔
      ∃ pre e post, es = pre ++ e :: post ∧ (links ++ pre).lookup e.1 ≠ none := by
  intro es
  induction es with
  | nil =>
    intro links
    constructor
    · intro h
      exact absurd (fresh_nil links) h
    · rintro ⟨pre, e, post, h, _⟩
      cases pre <;> simp at h
  | cons e es ih =>
    intro links
    have hsplit : Fresh links (e :: es) ↔ (Fresh links [e] ∧ Fresh (links ++ [e]) es) :=
      @fresh_append links [e] es
    constructor
    · intro h
      by_cases he : links.lookup e.1 = none
      · have hes : ¬ Fresh (links ++ [e]) es := by
          intro hf
          exact h (hsplit.2 ⟨fresh_singleton.2 he, hf⟩)
        obtain ⟨pre, e2, post, heq, hl⟩ := (ih (links ++ [e])).1 hes
        refine ⟨e :: pre, e2, post, by rw [heq]; rfl, ?_⟩
        simpa using hl
      · exact ⟨[], e, es, rfl, by simpa using he⟩
    · rintro ⟨pre, e2, post, heq, hl⟩ hf
      cases pre with
      | nil =>
        simp only [List.nil_append, List.cons.injEq] at heq
        obtain ⟨rfl, rfl⟩ := heq
        simp only [List.append_nil] at hl
        exact hl (fresh_singleton.1 (hsplit.1 hf).1)
      | cons a pre =>
        simp only [List.cons_append, List.cons.injEq] at heq
        obtain ⟨rfl, rfl⟩ := heq
        have hes := (hsplit.1 hf).2
        refine (ih (links ++ [e])).2 ⟨pre, e2, post, rfl, ?_⟩ hes
        simpa using hl

theorem registerUsers_duplicate_iff (parent : Option CallInst) (us : List User)
    (nl : CI_list) (links : LinkMap) :
    registerUsers parent us nl links = .error Violation.duplicateLink ↔
      ¬ Fresh links ((callUsers us).map (fun U => (U, parent))) := by
  cases h : registerUsers parent us nl links with
  | ok r =>
    have := ((registerUsers_ok_iff_fresh parent us nl links r).1 h).2
    simp [this]
  | error v =>
    have hv := registerUsers_error h
    subst hv
    simp only [true_iff]
    intro hf
    have := (registerUsers_ok_iff_fresh parent us nl links _).2 ⟨rfl, hf⟩
    rw [h] at this
    cases this

theorem expandLevel_duplicate_iff (M : Module) (level nl : CI_list) (links : LinkMap) :
    expandLevel M level nl links = .error Violation.duplicateLink ↔
      ¬ Fresh links (discovered M level) := by
  cases h : expandLevel M level nl links with
  | ok r =>
    have := ((expandLevel_ok_iff M level nl links r).1 h).2
    simp [this]
  | error v =>
    have hv := expandLevel_error h
    subst hv
    simp only [true_iff]
    intro hf
    have := (expandLevel_ok_iff M level nl links _).2 ⟨rfl, hf⟩
    rw [h] at this
    cases this

/-- The call fails at lines 158 or 171 exactly when it gets to the use-lists and
the entries it sets out to register are not fresh. -/
theorem levelUpCallerGraph_dup_not_fresh (M : Module) (root : Nat)
    (graph : CI_list) (links : LinkMap) (levels : List Nat) :
    levelUpCallerGraph M root graph links levels = .error Violation.duplicateLink ↔
      ∃ es, discoveries M root graph links levels = some es ∧ ¬ Fresh links es := by
  unfold levelUpCallerGraph discoveries
  cases graph with
  | cons a g =>
    simp only [List.isEmpty_cons, Bool.false_eq_true, if_false]
    cases hlast : levels.getLast? with
    | none => simp
    | some lb =>
      simp only
      by_cases hlb : lb = (a :: g).length
      · simp [hlb]
      · simp only [hlb, if_false, Option.some.injEq, exists_eq_left']
        rw [← expandLevel_duplicate_iff M _ [] links]
        cases hexp : expandLevel M (List.drop lb (a :: g)) [] links with
        | ok r => simp
        | error v => simp
  | nil =>
    simp only [List.isEmpty_nil, if_true]
    cases links with
    | cons e l => simp
    | nil =>
      cases levels with
      | cons e l => simp
      | nil =>
        simp only [List.isEmpty_nil, Bool.not_true, Bool.false_eq_true, if_false,
          Bool.and_self, if_true, Option.some.injEq, exists_eq_left']
        rw [← registerUsers_duplicate_iff none (M.users root) [] []]
        cases hreg : registerUsers none (M.users root) [] [] with
        | ok r => simp
        | error v => simp

theorem levelUpCallerGraph_ok_discoveries {M : Module} {root : Nat} {graph : CI_list}
    {links : LinkMap} {levels : List Nat}
    {new_level : CI_list} {links2 : LinkMap} {levels2 : List Nat}
    (h : levelUpCallerGraph M root graph links levels = .ok (new_level, links2, levels2)) :
    ∃ es, discoveries M root graph links levels = some es ∧ links2 = links ++ es ∧
      Fresh links es ∧ new_level = sortByFunction (es.map Prod.fst) := by
  obtain ⟨es, hl, hf, hnew, _, hcase⟩ := levelUpCallerGraph_ok h
  refine ⟨es, ?_, hl, hf, hnew⟩
  unfold discoveries
  rcases hcase with ⟨hg, hlk, hlv, hes⟩ | ⟨hg, lb, hlast, hlb, hes⟩
  · subst hg; subst hlk; subst hlv
    simp [hes]
  · cases graph with
    | nil => exact absurd rfl hg
    | cons a g =>
      simp only [List.isEmpty_cons, Bool.false_eq_true, if_false, hlast, hlb, hes]

/-- C11: `levelUpCallerGraph` fails with the duplicate-registration violation
exactly when, among the entries it sets out to register, there is one whose call
instruction is a key of the map at the moment it is reached, be it a key the map
held before the call or the key of an entry registered earlier in the same call.
When the call succeeds, every entry was appended after the entries the map held,
none of which was changed, and the new level holds the call instruction of every
entry. -/
theorem levelUpCallerGraph_duplicate_iff (M : Module) (root : Nat)
    (graph : CI_list) (links : LinkMap) (levels : List Nat) :
    (levelUpCallerGraph M root graph links levels = .error Violation.duplicateLink ↔
      ∃ es, discoveries M root graph links levels = some es ∧
        ∃ pre e post, es = pre ++ e :: post ∧ (links ++ pre).lookup e.1 ≠ none) ∧
    (∀ new_level links2 levels2,
      levelUpCallerGraph M root graph links levels = .ok (new_level, links2, levels2) →
      ∃ es, discoveries M root graph links levels = some es ∧ links2 = links ++ es ∧
        (∀ pre e post, es = pre ++ e :: post → (links ++ pre).lookup e.1 = none) ∧
        new_level.Perm (es.map Prod.fst) ∧
        ∀ c v, links.lookup c = some v → links2.lookup c = some v) := by
  constructor
  · rw [levelUpCallerGraph_dup_not_fresh]
    constructor
    · rintro ⟨es, hes, hnf⟩
      exact ⟨es, hes, (not_fresh_iff es links).1 hnf⟩
    · rintro ⟨es, hes, hdup⟩
      exact ⟨es, hes, (not_fresh_iff es links).2 hdup⟩
  · intro new_level links2 levels2 h
    obtain ⟨es, hd, hl, hf, hnew⟩ := levelUpCallerGraph_ok_discoveries h
    refine ⟨es, hd, hl, ?_, ?_, ?_⟩
    · intro pre e post heq
      by_contra hne
      exact (not_fresh_iff es links).2 ⟨pre, e, post, heq, hne⟩ hf
    · rw [hnew]
      exact sortByFunction_perm _
    · intro c v hc
      rw [hl]
      exact lookup_append_of_some hc

/-- Witness for C11: the begin side of Scenario C at its second round.  Both
calls of the begin marker lie in `foo`, so the call from `main` to `foo` is met
twice. -/
theorem levelUpCallerGraph_duplicate_iff_witness :
    levelUpCallerGraph scenarioC 1 [⟨10, 3⟩, ⟨11, 3⟩]
      [(⟨10, 3⟩, none), (⟨11, 3⟩, none)] [0] = .error Violation.duplicateLink ∧
    ∃ es, discoveries scenarioC 1 [⟨10, 3⟩, ⟨11, 3⟩]
        [(⟨10, 3⟩, none), (⟨11, 3⟩, none)] [0] = some es ∧
      ∃ pre e post, es = pre ++ e :: post ∧
        ([((⟨10, 3⟩ : CallInst), (none : Option CallInst)), (⟨11, 3⟩, none)] ++ pre).lookup e.1
          ≠ none :=
  ⟨rfl, (levelUpCallerGraph_duplicate_iff scenarioC 1 [⟨10, 3⟩, ⟨11, 3⟩]
    [(⟨10, 3⟩, none), (⟨11, 3⟩, none)] [0]).1.1 rfl⟩

/-! ### Chains follow the back-links -/

theorem pathFrom_head {links : LinkMap} {final : Option (Option CallInst)} {c : CallInst} :
    ∀ {path : List CallInst}, PathFrom links final c path → ∃ rest, path = c :: rest := by
  intro path h
  cases path with
  | nil => exact absurd h (by simp [PathFrom])
  | cons x rest =>
    cases rest with
    | nil => exact ⟨[], by rw [h.1]⟩
    | cons y r => exact ⟨y :: r, by rw [h.1]⟩

/-- The description of `PathFrom` by positions. -/
theorem pathFrom_iff {links : LinkMap} {final : Option (Option CallInst)} :
    ∀ {path : List CallInst} {c : CallInst}, PathFrom links final c path ↔
      (path.head? = some c ∧
        (∀ i x y, path[i]? = some x → path[i + 1]? = some y →
          links.lookup x = some (some y)) ∧
        ∃ last, path.getLast? = some last ∧ links.lookup last = final) := by
  intro path
  induction path with
  | nil => intro c; simp [PathFrom]
  | cons x rest ih =>
    intro c
    cases rest with
    | nil =>
      simp only [PathFrom, List.head?_cons, Option.some.injEq, List.getLast?_singleton,
        exists_eq_left']
      constructor
      · rintro ⟨rfl, h⟩
        refine ⟨rfl, ?_, h⟩
        intro i a b _ hb
        simp at hb
      · rintro ⟨rfl, _, h⟩
        exact ⟨rfl, h⟩
    | cons y r =>
      simp only [PathFrom, List.head?_cons, Option.some.injEq]
      rw [ih]
      constructor
      · rintro ⟨rfl, hl, _, hstep, last, hlast, hfin⟩
        refine ⟨rfl, ?_, last, ?_, hfin⟩
        · intro i a b ha hb
          cases i with
          | zero =>
            simp only [List.getElem?_cons_zero, Option.some.injEq, zero_add,
              List.getElem?_cons_succ] at ha hb
            subst ha; subst hb
            exact hl
          | succ j =>
            rw [List.getElem?_cons_succ] at ha hb
            exact hstep j a b ha hb
        · simpa [List.getLast?_cons_cons] using hlast
      · rintro ⟨rfl, hstep, last, hlast, hfin⟩
        refine ⟨rfl, hstep 0 x y (by simp) (by simp), by simp, ?_, last, ?_, hfin⟩
        · intro i a b ha hb
          exact hstep (i + 1) a b (by simpa using ha) (by simpa using hb)
        · simpa [List.getLast?_cons_cons] using hlast

/-- A walk along a path that ends in an element with the null back-link returns
the path. -/
theorem walkLinks_of_pathFrom_done {links : LinkMap} {missing : Violation} :
    ∀ {path : List CallInst} {c : CallInst} (fuel : Nat) (s : List CallInst),
      PathFrom links (some none) c path → path.length ≤ fuel →
      walkLinks links missing fuel c s = .done (s ++ path) := by
  intro path
  induction path with
  | nil => intro c fuel s h; exact absurd h (by simp [PathFrom])
  | cons x rest ih =>
    intro c fuel s h hlen
    obtain ⟨fuel, rfl⟩ : ∃ k, fuel = k + 1 := ⟨fuel - 1, by simp at hlen; omega⟩
    cases rest with
    | nil =>
      obtain ⟨rfl, hl⟩ := h
      simp [walkLinks, hl]
    | cons y r =>
      obtain ⟨rfl, hl, hrest⟩ := h
      simp only [walkLinks, hl]
      rw [ih fuel (s ++ [x]) hrest (by simp at hlen ⊢; omega)]
      simp

/-- A walk along a path that ends in an element missing from the map fails. -/
theorem walkLinks_of_pathFrom_broken {links : LinkMap} {missing : Violation} :
    ∀ {path : List CallInst} {c : CallInst} (fuel : Nat) (s : List CallInst),
      PathFrom links none c path → path.length ≤ fuel →
      walkLinks links missing fuel c s = .violation missing := by
  intro path
  induction path with
  | nil => intro c fuel s h; exact absurd h (by simp [PathFrom])
  | cons x rest ih =>
    intro c fuel s h hlen
    obtain ⟨fuel, rfl⟩ : ∃ k, fuel = k + 1 := ⟨fuel - 1, by simp at hlen; omega⟩
    cases rest with
    | nil =>
      obtain ⟨rfl, hl⟩ := h
      simp [walkLinks, hl]
    | cons y r =>
      obtain ⟨rfl, hl, hrest⟩ := h
      simp only [walkLinks, hl]
      exact ih fuel (s ++ [x]) hrest (by simp at hlen ⊢; omega)

/-- The chain that a walk returns is what was pushed before, followed by a path
from the start of the walk to an element with the null back-link. -/
theorem pathFrom_of_walkLinks_done {links : LinkMap} {missing : Violation} :
    ∀ {fuel : Nat} {c : CallInst} {s chain : List CallInst},
      walkLinks links missing fuel c s = .done chain →
      ∃ path, chain = s ++ path ∧ PathFrom links (some none) c path := by
  intro fuel
  induction fuel with
  | zero => intro c s chain h; simp [walkLinks] at h
  | succ n ih =>
    intro c s chain h
    simp only [walkLinks] at h
    cases hl : links.lookup c with
    | none => rw [hl] at h; cases h
    | some p =>
      rw [hl] at h
      cases p with
      | none =>
        simp only [Outcome.done.injEq] at h
        exact ⟨[c], h.symm, rfl, hl⟩
      | some parent =>
        simp only at h
        obtain ⟨path, hch, hp⟩ := ih h
        obtain ⟨rest, hrest⟩ := pathFrom_head hp
        subst hrest
        exact ⟨c :: parent :: rest, by simp [hch], rfl, hl, hp⟩

/-- From one start there is one path to a terminal element. -/
theorem pathFrom_unique {links : LinkMap} {final : Option (Option CallInst)}
    (hfin : Terminal final) :
    ∀ {p1 p2 : List CallInst} {c : CallInst},
      PathFrom links final c p1 → PathFrom links final c p2 → p1 = p2 := by
  intro p1
  induction p1 with
  | nil => intro p2 c h; exact absurd h (by simp [PathFrom])
  | cons x r1 ih =>
    intro p2 c h1 h2
    cases p2 with
    | nil => exact absurd h2 (by simp [PathFrom])
    | cons x2 r2 =>
      cases r1 with
      | nil =>
        obtain ⟨rfl, hl1⟩ := h1
        cases r2 with
        | nil => rw [h2.1]
        | cons y2 r2 =>
          obtain ⟨_, hl2, _⟩ := h2
          rw [hl1] at hl2
          rcases hfin with hf | hf <;> rw [hf] at hl2 <;> cases hl2
      | cons y1 r1 =>
        obtain ⟨rfl, hl1, hr1⟩ := h1
        cases r2 with
        | nil =>
          obtain ⟨_, hl2⟩ := h2
          rw [hl1] at hl2
          rcases hfin with hf | hf <;> rw [hf] at hl2 <;> cases hl2
        | cons y2 r2 =>
          obtain ⟨rfl, hl2, hr2⟩ := h2
          rw [hl1] at hl2
          simp only [Option.some.injEq] at hl2
          subst hl2
          rw [ih hr1 hr2]

/-- Every element of a path starts a path of its own, which is a final part of
the path. -/
theorem pathFrom_suffix {links : LinkMap} {final : Option (Option CallInst)} :
    ∀ {path : List CallInst} {c x : CallInst}, PathFrom links final c path → x ∈ path →
      ∃ pre suf, path = pre ++ suf ∧ PathFrom links final x suf := by
  intro path
  induction path with
  | nil => intro c x h; exact absurd h (by simp [PathFrom])
  | cons a rest ih =>
    intro c x h hx
    have ha : a = c := by
      cases rest with
      | nil => exact h.1
      | cons y r => exact h.1
    rcases List.mem_cons.1 hx with rfl | hx
    · exact ⟨[], x :: rest, rfl, by subst ha; exact h⟩
    · cases rest with
      | nil => simp at hx
      | cons y r =>
        obtain ⟨_, _, hr⟩ := h
        obtain ⟨pre, suf, heq, hs⟩ := ih hr hx
        exact ⟨a :: pre, suf, by rw [heq]; rfl, hs⟩

/-- A path to a terminal element visits no element twice. -/
theorem pathFrom_nodup {links : LinkMap} {final : Option (Option CallInst)}
    (hfin : Terminal final) :
    ∀ {path : List CallInst} {c : CallInst}, PathFrom links final c path → path.Nodup := by
  intro path
  induction path with
  | nil => intro c h; exact absurd h (by simp [PathFrom])
  | cons a rest ih =>
    intro c h
    cases rest with
    | nil => simp
    | cons y r =>
      have hr : PathFrom links final y (y :: r) := h.2.2
      refine List.nodup_cons.2 ⟨?_, ih hr⟩
      intro hmem
      obtain ⟨pre, suf, heq, hs⟩ := pathFrom_suffix hr hmem
      have hfull : PathFrom links final a (a :: y :: r) := by
        have := h
        rw [← h.1] at this
        exact this
      have := pathFrom_unique hfin hs hfull
      have hlen := congrArg List.length heq
      rw [this] at hlen
      simp only [List.length_cons, List.length_append] at hlen
      omega

theorem pathFrom_keys {links : LinkMap} :
    ∀ {path : List CallInst} {c : CallInst}, PathFrom links (some none) c path →
      ∀ x ∈ path, links.lookup x ≠ none := by
  intro path
  induction path with
  | nil => intro c h; exact absurd h (by simp [PathFrom])
  | cons a rest ih =>
    intro c h x hx
    cases rest with
    | nil =>
      obtain ⟨rfl, hl⟩ := h
      simp only [List.mem_singleton] at hx
      subst hx
      rw [hl]; simp
    | cons y r =>
      obtain ⟨rfl, hl, hr⟩ := h
      rcases List.mem_cons.1 hx with rfl | hx
      · rw [hl]; simp
      · exact ih hr x hx

theorem pathFrom_broken_keys {links : LinkMap} :
    ∀ {path : List CallInst} {c : CallInst}, PathFrom links none c path →
      ∀ x ∈ path.dropLast, links.lookup x ≠ none := by
  intro path
  induction path with
  | nil => intro c h; exact absurd h (by simp [PathFrom])
  | cons a rest ih =>
    intro c h x hx
    cases rest with
    | nil => simp at hx
    | cons y r =>
      obtain ⟨rfl, hl, hr⟩ := h
      simp only [List.dropLast_cons₂, List.mem_cons] at hx
      rcases hx with rfl | hx
      · rw [hl]; simp
      · exact ih hr x hx

theorem length_le_of_nodup_keys {links : LinkMap} {l : List CallInst} (hn : l.Nodup)
    (hk : ∀ x ∈ l, links.lookup x ≠ none) : l.length ≤ links.length := by
  have hsub : l ⊆ links.map Prod.fst := by
    intro x hx
    have := hk x hx
    rw [Ne, lookup_eq_none_iff_not_mem_keys, not_not] at this
    exact this
  have := (List.subperm_of_subset hn hsub).length_le
  simpa using this

/-- A path to an element with the null back-link is no longer than the map. -/
theorem pathFrom_length_le {links : LinkMap} {path : List CallInst} {c : CallInst}
    (h : PathFrom links (some none) c path) : path.length ≤ links.length :=
  length_le_of_nodup_keys (pathFrom_nodup (Or.inr rfl) h) (pathFrom_keys h)

/-- A path to an element that is no key has at most one element more than the
map has entries. -/
theorem pathFrom_broken_length_le {links : LinkMap} {path : List CallInst} {c : CallInst}
    (h : PathFrom links none c path) : path.length ≤ links.length + 1 := by
  have hn : path.dropLast.Nodup :=
    (pathFrom_nodup (Or.inl rfl) h).sublist (List.dropLast_sublist path)
  have := length_le_of_nodup_keys hn (pathFrom_broken_keys h)
  simp only [List.length_dropLast] at this
  omega

/-- C12: for every back-link map and every call instruction `c`, a walk that
returns a chain returns a path from `c` to an element with the null back-link:
the chain starts with `c`, each further element is the back-link of the one
before it, and the last one has the null back-link; whenever such a path exists
the walk, with the fuel that the search gives it, returns exactly that path;
and whenever the back-links lead from `c` to an element that is no key of the
map, the walk fails with the assertion. -/
theorem walkLinks_follows_links (links : LinkMap) (missing : Violation) (c : CallInst) :
    (∀ chain, PathFrom links (some none) c chain →
      walkLinks links missing (links.length + 1) c [] = .done chain) ∧
    (∀ fuel chain, walkLinks links missing fuel c [] = .done chain →
      PathFrom links (some none) c chain) ∧
    (∀ visited, PathFrom links none c visited →
      walkLinks links missing (links.length + 1) c [] = .violation missing) := by
  refine ⟨?_, ?_, ?_⟩
  · intro chain h
    have hw := @walkLinks_of_pathFrom_done links missing chain c (links.length + 1) [] h
      (Nat.le_succ_of_le (pathFrom_length_le h))
    simpa using hw
  · intro fuel chain h
    obtain ⟨path, hch, hp⟩ := pathFrom_of_walkLinks_done h
    simp only [List.nil_append] at hch
    rw [hch]
    exact hp
  · intro visited h
    exact walkLinks_of_pathFrom_broken (links.length + 1) [] h (pathFrom_broken_length_le h)

/-- Witness for C12: a map with three keys in which the call 13 leads to the
chain of the calls 13, 12 and 10, and of which the call 14 is no key. -/
theorem walkLinks_follows_links_witness :
    PathFrom [(⟨10, 3⟩, none), (⟨12, 4⟩, some ⟨10, 3⟩), (⟨13, 5⟩, some ⟨12, 4⟩)]
      (some none) ⟨13, 5⟩ [⟨13, 5⟩, ⟨12, 4⟩, ⟨10, 3⟩] ∧
    walkLinks [(⟨10, 3⟩, none), (⟨12, 4⟩, some ⟨10, 3⟩), (⟨13, 5⟩, some ⟨12, 4⟩)]
      Violation.beginLinkMissing (3 + 1) ⟨13, 5⟩ [] = .done [⟨13, 5⟩, ⟨12, 4⟩, ⟨10, 3⟩] ∧
    PathFrom [(⟨10, 3⟩, none), (⟨12, 4⟩, some ⟨10, 3⟩), (⟨13, 5⟩, some ⟨12, 4⟩)]
      none ⟨14, 5⟩ [⟨14, 5⟩] ∧
    walkLinks [(⟨10, 3⟩, none), (⟨12, 4⟩, some ⟨10, 3⟩), (⟨13, 5⟩, some ⟨12, 4⟩)]
      Violation.beginLinkMissing (3 + 1) ⟨14, 5⟩ [] =
        .violation Violation.beginLinkMissing :=
  ⟨⟨rfl, rfl, rfl, rfl, rfl, rfl⟩,
    (walkLinks_follows_links
      [(⟨10, 3⟩, none), (⟨12, 4⟩, some ⟨10, 3⟩), (⟨13, 5⟩, some ⟨12, 4⟩)]
      Violation.beginLinkMissing ⟨13, 5⟩).1 [⟨13, 5⟩, ⟨12, 4⟩, ⟨10, 3⟩]
      ⟨rfl, rfl, rfl, rfl, rfl, rfl⟩,
    ⟨rfl, rfl⟩,
    (walkLinks_follows_links
      [(⟨10, 3⟩, none), (⟨12, 4⟩, some ⟨10, 3⟩), (⟨13, 5⟩, some ⟨12, 4⟩)]
      Violation.beginLinkMissing ⟨14, 5⟩).2.2 [⟨14, 5⟩] ⟨rfl, rfl⟩⟩

/-! ### The begin walk never misses a link -/

theorem walkInv_init : WalkInv PassState.init := by
  refine ⟨?_, walksEnd_nil, ?_, walksEnd_nil⟩
  · intro c hc; simp [PassState.init] at hc
  · intro c hc; simp [PassState.init] at hc

theorem searchRound_walkInv {M : Module} {txBegin txCommit : Nat} {st st2 : PassState}
    {e : Bool} (h : searchRound M txBegin txCommit st = .done (st2, e))
    (hinv : WalkInv st) : WalkInv st2 := by
  obtain ⟨nb, blinks, blevels, nc, clinks, clevels, hlb, hlc, hgb, hgc, hkb, hkc, _⟩ :=
    searchRound_shape h
  obtain ⟨hb1, hb2, hc1, hc2⟩ := hinv
  obtain ⟨hwb, hcovb⟩ := levelUpCallerGraph_walksEnd hlb hb1 hb2
  obtain ⟨hwc, hcovc⟩ := levelUpCallerGraph_walksEnd hlc hc1 hc2
  have hsl : (diffCallerGraphs nb nc).1.Sublist nb ∧
      (diffCallerGraphs nb nc).2.1.Sublist nb ∧ (diffCallerGraphs nb nc).2.2.Sublist nc :=
    diffLoop_sublist (nb.length + nc.length) nb nc
  refine ⟨?_, ?_, ?_, ?_⟩
  · rw [hgb, hkb]; exact keysCover_append_sublist hcovb hsl.2.1
  · rw [hkb]; exact hwb
  · rw [hgc, hkc]; exact keysCover_append_sublist hcovc hsl.2.2
  · rw [hkc]; exact hwc

theorem afterRounds_walkInv {M : Module} {txBegin txCommit : Nat} :
    ∀ {k : Nat} {st st2 : PassState},
      afterRounds M txBegin txCommit k st = some st2 → WalkInv st → WalkInv st2 := by
  intro k
  induction k with
  | zero =>
    intro st st2 h hinv
    simp only [afterRounds, Option.some.injEq] at h
    subst h
    exact hinv
  | succ k ih =>
    intro st st2 h hinv
    simp only [afterRounds] at h
    cases hr : searchRound M txBegin txCommit st with
    | violation v => rw [hr] at h; cases h
    | diverge => rw [hr] at h; cases h
    | done r =>
      obtain ⟨st1, e⟩ := r
      rw [hr] at h
      cases e with
      | true => cases h
      | false => exact ih h (searchRound_walkInv hr hinv)

/-- After a level expansion the walk from every call instruction of the new
level ends: it returns a path to an element with the null back-link, all of
whose elements are keys of the map. -/
theorem walkLinks_new_level {M : Module} {root : Nat} {graph : CI_list}
    {links : LinkMap} {levels : List Nat}
    {new_level : CI_list} {links2 : LinkMap} {levels2 : List Nat}
    (h : levelUpCallerGraph M root graph links levels = .ok (new_level, links2, levels2))
    (hk : KeysCover graph links) (hw : WalksEnd links) (missing : Violation)
    {C : CallInst} (hC : C ∈ new_level) :
    ∃ chain, walkLinks links2 missing (links2.length + 1) C [] = .done chain ∧
      PathFrom links2 (some none) C chain ∧ ∀ x ∈ chain, links2.lookup x ≠ none := by
  obtain ⟨hw2, hcov⟩ := levelUpCallerGraph_walksEnd h hk hw
  have hkey : links2.lookup C ≠ none := hcov C (List.mem_append_right _ hC)
  obtain ⟨chain, hch⟩ := hw2 C hkey missing []
  have hch2 := walkLinks_fuel_mono hch (links2.length + 1) (Nat.le_succ _)
  obtain ⟨path, hp1, hp2⟩ := pathFrom_of_walkLinks_done hch2
  simp only [List.nil_append] at hp1
  subst hp1
  exact ⟨chain, hch2, hp2, pathFrom_keys hp2⟩

theorem walkLinks_violation {links : LinkMap} {missing : Violation} :
    ∀ {fuel : Nat} {c : CallInst} {s : List CallInst} {v : Violation},
      walkLinks links missing fuel c s = .violation v → v = missing := by
  intro fuel
  induction fuel with
  | zero => intro c s v h; simp [walkLinks] at h
  | succ n ih =>
    intro c s v h
    simp only [walkLinks] at h
    cases hl : links.lookup c with
    | none =>
      rw [hl] at h
      simp only [Outcome.violation.injEq] at h
      exact h.symm
    | some p =>
      rw [hl] at h
      cases p with
      | none => cases h
      | some parent => exact ih h

theorem pairCandidates_violation :
    ∀ {cands : CI_list} {st : PassState} {v : Violation},
      pairCandidates cands st = .violation v →
      (∀ C ∈ cands, ∃ chain, walkLinks st.txBeginCallees Violation.beginLinkMissing
        (st.txBeginCallees.length + 1) C [] = .done chain) →
      v = Violation.commitLinkMissing := by
  intro cands
  induction cands with
  | nil => intro st v h; simp [pairCandidates] at h
  | cons C rest ih =>
    intro st v h hall
    obtain ⟨chain, hch⟩ := hall C (List.mem_cons_self _ _)
    simp only [pairCandidates, hch] at h
    cases hc : walkLinks st.txCommitCallees Violation.commitLinkMissing
        (st.txCommitCallees.length + 1) C [] with
    | violation w =>
      rw [hc] at h
      simp only [Outcome.violation.injEq] at h
      subst h
      exact walkLinks_violation hc
    | diverge => rw [hc] at h; cases h
    | done cstrand =>
      rw [hc] at h
      simp only at h
      exact ih h (fun C2 hC2 => hall C2 (List.mem_cons_of_mem _ hC2))

theorem levelUpCallerGraph_error_ne {M : Module} {root : Nat} {graph : CI_list}
    {links : LinkMap} {levels : List Nat} {v : Violation}
    (h : levelUpCallerGraph M root graph links levels = .error v) :
    v ≠ Violation.beginLinkMissing := by
  unfold levelUpCallerGraph at h
  split at h
  · split at h
    · cases h; simp
    · split at h
      · cases h; simp
      · split at h
        · rename_i hreg
          simp only [Except.error.injEq] at h
          subst h
          rw [registerUsers_error hreg]
          simp
        · cases h
  · split at h
    · cases h; simp
    · split at h
      · cases h; simp
      · split at h
        · rename_i hexp
          simp only [Except.error.injEq] at h
          subst h
          rw [expandLevel_error hexp]
          simp
        · cases h

theorem searchRound_violation_ne {M : Module} {txBegin txCommit : Nat} {st : PassState}
    {v : Violation} (h : searchRound M txBegin txCommit st = .violation v)
    (hinv : WalkInv st) : v ≠ Violation.beginLinkMissing := by
  obtain ⟨hb1, hb2, _, _⟩ := hinv
  unfold searchRound at h
  cases hb : levelUpCallerGraph M txBegin st.txBeginCallers st.txBeginCallees
      st.txBeginCallerLevels with
  | error w =>
    rw [hb] at h
    simp only [Outcome.violation.injEq] at h
    subst h
    exact levelUpCallerGraph_error_ne hb
  | ok rb =>
    obtain ⟨new_blevel, blinks, blevels⟩ := rb
    rw [hb] at h
    simp only at h
    cases hc : levelUpCallerGraph M txCommit st.txCommitCallers st.txCommitCallees
        st.txCommitCallerLevels with
    | error w =>
      rw [hc] at h
      simp only [Outcome.violation.injEq] at h
      subst h
      exact levelUpCallerGraph_error_ne hc
    | ok rc =>
      obtain ⟨new_clevel, clinks, clevels⟩ := rc
      rw [hc] at h
      simp only at h
      cases hp : pairCandidates (diffCallerGraphs new_blevel new_clevel).1
          { st with txBeginCallees := blinks, txBeginCallerLevels := blevels,
                    txCommitCallees := clinks, txCommitCallerLevels := clevels } with
      | done st1 => rw [hp] at h; cases h
      | diverge => rw [hp] at h; cases h
      | violation w =>
        rw [hp] at h
        simp only [Outcome.violation.injEq] at h
        subst h
        have hsl : (diffCallerGraphs new_blevel new_clevel).1.Sublist new_blevel :=
          (diffLoop_sublist (new_blevel.length + new_clevel.length) new_blevel new_clevel).1
        rw [pairCandidates_violation hp ?_]
        · simp
        · intro C hC
          obtain ⟨chain, hch, _⟩ := walkLinks_new_level hb hb1 hb2
            Violation.beginLinkMissing (hsl.subset hC)
          exact ⟨chain, hch⟩

theorem searchLoop_violation_ne {M : Module} {txBegin txCommit : Nat} :
    ∀ {rounds : Nat} {st : PassState} {v : Violation},
      searchLoop M txBegin txCommit rounds st = .violation v → WalkInv st →
      v ≠ Violation.beginLinkMissing := by
  intro rounds
  induction rounds with
  | zero => intro st v h; simp [searchLoop] at h
  | succ n ih =>
    intro st v h hinv
    simp only [searchLoop] at h
    cases hr : searchRound M txBegin txCommit st with
    | violation w =>
      rw [hr] at h
      simp only [Outcome.violation.injEq] at h
      subst h
      exact searchRound_violation_ne hr hinv
    | diverge => rw [hr] at h; cases h
    | done r =>
      obtain ⟨st1, e⟩ := r
      rw [hr] at h
      simp only at h
      cases e with
      | true => simp at h
      | false =>
        simp only [Bool.false_eq_true, if_false] at h
        exact ih h (searchRound_walkInv hr hinv)

/-- C19: the assertion of line 73 never fails in a run on a fresh pass object,
and at every round the run reaches, after the two level expansions, the begin
walk from every entry of the intersection ends: with the fuel that the search
gives it, it returns a path from the entry to a call instruction with the null
back-link, and every call instruction on that path is a key of the begin-side
map. -/
theorem begin_walk_never_fails (M : Module) (txBegin txCommit : Nat) :
    (∀ rounds, searchLoop M txBegin txCommit rounds PassState.init ≠
      .violation Violation.beginLinkMissing) ∧
    (∀ k st, afterRounds M txBegin txCommit k PassState.init = some st →
      ∀ new_blevel blinks blevels new_clevel clinks clevels,
        levelUpCallerGraph M txBegin st.txBeginCallers st.txBeginCallees
          st.txBeginCallerLevels = .ok (new_blevel, blinks, blevels) →
        levelUpCallerGraph M txCommit st.txCommitCallers st.txCommitCallees
          st.txCommitCallerLevels = .ok (new_clevel, clinks, clevels) →
        ∀ C ∈ (diffCallerGraphs new_blevel new_clevel).1,
          ∃ chain, walkLinks blinks Violation.beginLinkMissing (blinks.length + 1) C [] =
              .done chain ∧
            PathFrom blinks (some none) C chain ∧ ∀ x ∈ chain, blinks.lookup x ≠ none) := by
  constructor
  · intro rounds h
    exact searchLoop_violation_ne h walkInv_init rfl
  · intro k st hreach nb blinks blevels nc clinks clevels hb _ C hC
    obtain ⟨hb1, hb2, _, _⟩ := afterRounds_walkInv hreach walkInv_init
    have hsl : (diffCallerGraphs nb nc).1.Sublist nb :=
      (diffLoop_sublist (nb.length + nc.length) nb nc).1
    exact walkLinks_new_level hb hb1 hb2 Violation.beginLinkMissing (hsl.subset hC)

/-! ### Runs that stop in their second round -/

/-- C1 (Scenario A), the behaviour of the code: the first round finds the call
from `foo` to the begin marker and the call from `bar` to the commit marker,
which lie in different functions, and does not end the search; the second
round, whatever the number of rounds allowed, stops in the expansion of the begin
side at the assertion of line 163, because the boundary recorded in the first
round was the end of the accumulated list and still is after the splice.  The
run returns no pair. -/
theorem scenarioA_aborts_in_second_round (k : Nat) :
    runOnModule 1 scenarioA = Outcome.diverge ∧
    runOnModule (k + 2) scenarioA = Outcome.violation Violation.levelBoundaryAtEnd ∧
    (∃ st, searchRound scenarioA 1 2 PassState.init = Outcome.done (st, false) ∧
      st.pairs = [] ∧
      searchRound scenarioA 1 2 st = Outcome.violation Violation.levelBoundaryAtEnd) :=
  ⟨rfl, rfl, ⟨_, rfl, rfl, rfl⟩⟩

/-- C7 (Scenario B), the behaviour of the code: the marker calls lie in `foo` and
in `bar`, which have no caller in common.  Whether the two trees have different
heights or the same height, the first round does not end the search and the
second round stops in the expansion of the begin side at the assertion of line
163. -/
theorem scenarioB_aborts_in_second_round (k : Nat) :
    runOnModule 1 scenarioBUneven = Outcome.diverge ∧
    runOnModule (k + 2) scenarioBUneven =
      Outcome.violation Violation.levelBoundaryAtEnd ∧
    runOnModule 1 scenarioBEven = Outcome.diverge ∧
    runOnModule (k + 2) scenarioBEven =
      Outcome.violation Violation.levelBoundaryAtEnd :=
  ⟨rfl, rfl, rfl, rfl⟩

/-- After a round that completes, each side can no longer be expanded: on a
side whose accumulated list is not empty the assertion of line 163 fails, and on
a side whose accumulated list is empty that of line 150 or of line 151. -/
theorem levelUpCallerGraph_after_round {M : Module} {txBegin txCommit : Nat}
    {st st2 : PassState} {e : Bool}
    (h : searchRound M txBegin txCommit st = .done (st2, e)) (root : Nat) :
    (st2.txBeginCallers ≠ [] →
      levelUpCallerGraph M root st2.txBeginCallers st2.txBeginCallees
        st2.txBeginCallerLevels = .error Violation.levelBoundaryAtEnd) ∧
    (st2.txCommitCallers ≠ [] →
      levelUpCallerGraph M root st2.txCommitCallers st2.txCommitCallees
        st2.txCommitCallerLevels = .error Violation.levelBoundaryAtEnd) ∧
    (∃ v, levelUpCallerGraph M root st2.txBeginCallers st2.txBeginCallees
        st2.txBeginCallerLevels = .error v) ∧
    (∃ v, levelUpCallerGraph M root st2.txCommitCallers st2.txCommitCallees
        st2.txCommitCallerLevels = .error v) := by
  obtain ⟨hb, hc⟩ := searchRound_exhausted h
  exact ⟨fun hne => levelUpCallerGraph_at_end hne hb,
    fun hne => levelUpCallerGraph_at_end hne hc,
    levelUpCallerGraph_exhausted hb, levelUpCallerGraph_exhausted hc⟩

/-- Whenever a round completes without ending the search and leaves the begin
side with a call instruction in its accumulated list, the next round stops at
the assertion of line 163. -/
theorem searchLoop_aborts_after_remainder {M : Module} {txBegin txCommit : Nat}
    {st st2 : PassState}
    (h : searchRound M txBegin txCommit st = .done (st2, false))
    (hne : st2.txBeginCallers ≠ []) (n : Nat) :
    searchLoop M txBegin txCommit (n + 2) st =
      .violation Violation.levelBoundaryAtEnd := by
  have hr : searchRound M txBegin txCommit st2 =
      .violation Violation.levelBoundaryAtEnd := by
    unfold searchRound
    rw [levelUpCallerGraph_at_end hne (searchRound_exhausted h).1]
  simp only [searchLoop, h, hr, Bool.false_eq_true, if_false]

/-- C15, the behaviour of the code: in the first round of `beginNeverCalled`
the begin side returns an empty level and the commit side the call 11, and the
search goes on; in the second round the expansion of the begin side, the side
that has run out of callers, fails at the assertion of line 151, and the round
with it. -/
theorem beginNeverCalled_exhausted_side_fails :
    ∃ st blinks blevels clinks clevels,
      levelUpCallerGraph beginNeverCalled 1 PassState.init.txBeginCallers
        PassState.init.txBeginCallees PassState.init.txBeginCallerLevels =
          .ok ([], blinks, blevels) ∧
      levelUpCallerGraph beginNeverCalled 2 PassState.init.txCommitCallers
        PassState.init.txCommitCallees PassState.init.txCommitCallerLevels =
          .ok ([⟨11, 4⟩], clinks, clevels) ∧
      searchRound beginNeverCalled 1 2 PassState.init = Outcome.done (st, false) ∧
      levelUpCallerGraph beginNeverCalled 1 st.txBeginCallers st.txBeginCallees
        st.txBeginCallerLevels = .error Violation.levelsNotEmpty ∧
      searchRound beginNeverCalled 1 2 st = Outcome.violation Violation.levelsNotEmpty :=
  ⟨_, _, _, _, _, rfl, rfl, rfl, rfl, rfl⟩

/-- Merging a frontier with itself matches every entry. -/
theorem diffLoop_self : ∀ (A : CI_list) (n : Nat), A.length ≤ n →
    diffLoop n A A = (A, [], []) := by
  intro A
  induction A with
  | nil =>
    intro n _
    cases n <;> rfl
  | cons a A ih =>
    intro n hn
    cases n with
    | zero => simp at hn
    | succ m =>
      have hm : A.length ≤ m := by
        simp only [List.length_cons] at hn
        omega
      simp only [diffLoop, compCallInstByFunction, lt_self_iff_false, decide_False,
        Bool.false_eq_true, if_false, ih m hm]

/-- What the first expansion of a side returns: the new level holds the call
instructions that use the marker, and every entry of the map has the null
back-link and belongs to such a call instruction. -/
theorem levelUpCallerGraph_first_keys {M : Module} {root : Nat}
    {links : LinkMap} {levels : List Nat}
    {new_level : CI_list} {links2 : LinkMap} {levels2 : List Nat}
    (h : levelUpCallerGraph M root [] links levels = .ok (new_level, links2, levels2)) :
    (∀ c, c ∈ new_level → User.call c ∈ M.users root) ∧
    (∀ c v, links2.lookup c = some v → v = none ∧ User.call c ∈ M.users root) ∧
    levels2 = [0] := by
  obtain ⟨es, hl, _, hnew, hlev, hcase⟩ := levelUpCallerGraph_ok h
  rcases hcase with ⟨_, hlinks, hlevels, hes⟩ | ⟨hg, _⟩
  · subst hlinks
    subst hlevels
    subst hes
    refine ⟨?_, ?_, ?_⟩
    · intro c hc
      rw [hnew, mem_sortByFunction, keys_map_pair] at hc
      exact mem_callUsers.1 hc
    · intro c v hcv
      rw [hl] at hcv
      have hmem := mem_of_lookup_eq_some hcv
      simp only [List.nil_append] at hmem
      obtain ⟨U, hU, hUc⟩ := List.mem_map.1 hmem
      simp only [Prod.mk.injEq] at hUc
      obtain ⟨h1, h2⟩ := hUc
      subst h1
      exact ⟨h2.symm, mem_callUsers.1 hU⟩
    · simpa using hlev
  · exact absurd rfl hg

/-- Over a map all of whose back-links are null, a walk that ends returns the
call instruction it started from and nothing else. -/
theorem walkLinks_roots {links : LinkMap} {missing : Violation}
    (hroots : ∀ c v, links.lookup c = some v → v = none)
    {fuel : Nat} {C : CallInst} {strand chain : List CallInst}
    (h : walkLinks links missing fuel C strand = .done chain) :
    chain = strand ++ [C] ∧ links.lookup C = some none := by
  cases fuel with
  | zero => simp [walkLinks] at h
  | succ n =>
    simp only [walkLinks] at h
    cases hl : links.lookup C with
    | none => rw [hl] at h; cases h
    | some p =>
      have hp := hroots C p hl
      subst hp
      rw [hl] at h
      simp only [Outcome.done.injEq] at h
      exact ⟨h.symm, rfl⟩

/-- When the walks of a round all end, both walks ended for every candidate. -/
theorem pairCandidates_done_all :
    ∀ {cands : CI_list} {st st1 : PassState}, pairCandidates cands st = .done st1 →
      ∀ C ∈ cands,
        (∃ chain, walkLinks st.txBeginCallees Violation.beginLinkMissing
          (st.txBeginCallees.length + 1) C [] = .done chain) ∧
        (∃ chain, walkLinks st.txCommitCallees Violation.commitLinkMissing
          (st.txCommitCallees.length + 1) C [] = .done chain) := by
  intro cands
  induction cands with
  | nil => intro st st1 _ C hC; simp at hC
  | cons C0 rest ih =>
    intro st st1 h C hC
    simp only [pairCandidates] at h
    cases hb : walkLinks st.txBeginCallees Violation.beginLinkMissing
        (st.txBeginCallees.length + 1) C0 [] with
    | violation v => rw [hb] at h; cases h
    | diverge => rw [hb] at h; cases h
    | done bstrand =>
      rw [hb] at h
      simp only at h
      cases hc : walkLinks st.txCommitCallees Violation.commitLinkMissing
          (st.txCommitCallees.length + 1) C0 [] with
      | violation v => rw [hc] at h; cases h
      | diverge => rw [hc] at h; cases h
      | done cstrand =>
        rw [hc] at h
        simp only at h
        rcases List.mem_cons.1 hC with rfl | hC
        · exact ⟨⟨bstrand, hb⟩, ⟨cstrand, hc⟩⟩
        · exact ih h C hC

/-- A state reached by at least one round is the state after a round that
completed. -/
theorem afterRounds_succ_last {M : Module} {txBegin txCommit : Nat} :
    ∀ {k : Nat} {st0 st : PassState},
      afterRounds M txBegin txCommit (k + 1) st0 = some st →
      ∃ st1, searchRound M txBegin txCommit st1 = .done (st, false) := by
  intro k
  induction k with
  | zero =>
    intro st0 st h
    simp only [afterRounds] at h
    cases hr : searchRound M txBegin txCommit st0 with
    | violation v => rw [hr] at h; cases h
    | diverge => rw [hr] at h; cases h
    | done r =>
      obtain ⟨st1, e⟩ := r
      rw [hr] at h
      cases e with
      | true => cases h
      | false =>
        simp only [Option.some.injEq] at h
        subst h
        exact ⟨st0, hr⟩
  | succ k ih =>
    intro st0 st h
    rw [afterRounds] at h
    cases hr : searchRound M txBegin txCommit st0 with
    | violation v => rw [hr] at h; cases h
    | diverge => rw [hr] at h; cases h
    | done r =>
      obtain ⟨st1, e⟩ := r
      rw [hr] at h
      cases e with
      | true => cases h
      | false => exact ih h

/-- Every round that completes in a run starts from the fresh pass object: a
state reached by a round admits no further round that completes. -/
theorem afterRounds_round_is_first {M : Module} {txBegin txCommit : Nat}
    {k : Nat} {st st2 : PassState} {e : Bool}
    (hreach : afterRounds M txBegin txCommit k PassState.init = some st)
    (h : searchRound M txBegin txCommit st = .done (st2, e)) :
    st = PassState.init := by
  cases k with
  | zero =>
    simp only [afterRounds, Option.some.injEq] at hreach
    exact hreach.symm
  | succ k =>
    obtain ⟨st1, h1⟩ := afterRounds_succ_last hreach
    obtain ⟨v, hv⟩ := searchRound_after_round h1
    rw [hv] at h
    cases h

/-- With one function for both markers the first round sets `endSearch`
whenever it completes. -/
theorem searchRound_same_marker {M : Module} {t : Nat} {st2 : PassState} {e : Bool}
    (h : searchRound M t t PassState.init = .done (st2, e)) : e = true := by
  obtain ⟨nb, blinks, blevels, nc, clinks, clevels, hlb, hlc, _, _, _, _, _, _, he⟩ :=
    searchRound_shape h
  have heq : (Except.ok (nb, blinks, blevels) : Except Violation _) =
      Except.ok (nc, clinks, clevels) := hlb.symm.trans hlc
  simp only [Except.ok.injEq, Prod.mk.injEq] at heq
  obtain ⟨hn, _, _⟩ := heq
  subst hn
  have hd : diffCallerGraphs nb nb = (nb, [], []) :=
    diffLoop_self nb (nb.length + nb.length) (Nat.le_add_right _ _)
  rw [he, hd]
  exact ⟨rfl, rfl⟩

/-- C8: let `Fs` be a finite set of functions that holds the two markers.  Then
the round loop stops, normally or at a failed assertion, within `Fs.card`
rounds.  It stops within two rounds in any case: after a round that completed
without ending the search, the next round fails in the expansion of the begin
side. -/
theorem runOnModule_stops_within_functions (M : Module) (Fs : Finset Nat)
    (hb : ∀ txBegin, M.xbegin = some txBegin → txBegin ∈ Fs)
    (hc : ∀ txCommit, M.xend = some txCommit → txCommit ∈ Fs) :
    (∀ rounds, Fs.card ≤ rounds → runOnModule rounds M ≠ .diverge) ∧
    (∀ rounds, 2 ≤ rounds → runOnModule rounds M ≠ .diverge) := by
  constructor
  · intro rounds hr
    apply runOnModule_ne_diverge_of_searchLoop
    intro txBegin txCommit hxb hxc
    by_cases hsame : txBegin = txCommit
    · subst hsame
      have hpos : 0 < Fs.card := Finset.card_pos.2 ⟨txBegin, hb txBegin hxb⟩
      obtain ⟨n, rfl⟩ : ∃ n, rounds = n + 1 := ⟨rounds - 1, by omega⟩
      simp only [searchLoop]
      cases hs : searchRound M txBegin txBegin PassState.init with
      | violation v => simp
      | diverge => exact absurd hs (searchRound_ne_diverge walkInv_init)
      | done r =>
        obtain ⟨st2, e⟩ := r
        have he := searchRound_same_marker hs
        subst he
        simp
    · have hcard : 1 < Fs.card :=
        Finset.one_lt_card.2 ⟨txBegin, hb txBegin hxb, txCommit, hc txCommit hxc, hsame⟩
      obtain ⟨n, rfl⟩ : ∃ n, rounds = n + 2 := ⟨rounds - 2, by omega⟩
      exact searchLoop_two_rounds walkInv_init n
  · intro rounds hr
    apply runOnModule_ne_diverge_of_searchLoop
    intro txBegin txCommit _ _
    obtain ⟨n, rfl⟩ : ∃ n, rounds = n + 2 := ⟨rounds - 2, by omega⟩
    exact searchLoop_two_rounds walkInv_init n

/-- Witness for C8: Scenario A, whose five functions are the two markers, `foo`,
`bar` and `main`; the loop has stopped after five rounds, and after two. -/
theorem runOnModule_stops_within_functions_witness :
    ({1, 2, 3, 4, 5} : Finset Nat).card = 5 ∧
    runOnModule 5 scenarioA ≠ Outcome.diverge ∧ runOnModule 2 scenarioA ≠ Outcome.diverge :=
  have hb : ∀ txBegin, scenarioA.xbegin = some txBegin →
      txBegin ∈ ({1, 2, 3, 4, 5} : Finset Nat) := by
    intro txBegin h
    cases h
    decide
  have hc : ∀ txCommit, scenarioA.xend = some txCommit →
      txCommit ∈ ({1, 2, 3, 4, 5} : Finset Nat) := by
    intro txCommit h
    cases h
    decide
  ⟨rfl, (runOnModule_stops_within_functions scenarioA {1, 2, 3, 4, 5} hb hc).1 5 (by decide),
    (runOnModule_stops_within_functions scenarioA {1, 2, 3, 4, 5} hb hc).2 2 (by decide)⟩

/-- C16: in a module in which no call instruction uses both markers, a round of
a run that completes sets `endSearch` exactly when both new levels returned by
its two expansions are empty; the loop ends after a round that sets `endSearch`
and otherwise goes on with another round. -/
theorem searchRound_endSearch_iff (M : Module) (txBegin txCommit : Nat)
    (hcg : ∀ c ∈ callUsers (M.users txBegin), c ∉ callUsers (M.users txCommit))
    (k : Nat) (st st2 : PassState) (e : Bool)
    (hreach : afterRounds M txBegin txCommit k PassState.init = some st)
    (h : searchRound M txBegin txCommit st = .done (st2, e)) :
    ∃ new_blevel blinks blevels new_clevel clinks clevels,
      levelUpCallerGraph M txBegin st.txBeginCallers st.txBeginCallees
        st.txBeginCallerLevels = .ok (new_blevel, blinks, blevels) ∧
      levelUpCallerGraph M txCommit st.txCommitCallers st.txCommitCallees
        st.txCommitCallerLevels = .ok (new_clevel, clinks, clevels) ∧
      (e = true ↔ (new_blevel = [] ∧ new_clevel = [])) ∧
      ∀ n, searchLoop M txBegin txCommit (n + 1) st =
        if e then .done st2 else searchLoop M txBegin txCommit n st2 := by
  have hst := afterRounds_round_is_first hreach h
  subst hst
  obtain ⟨nb, blinks, blevels, nc, clinks, clevels, st1, hlb, hlc, hpc, _, he⟩ :=
    searchRound_done h
  refine ⟨nb, blinks, blevels, nc, clinks, clevels, hlb, hlc, ?_, ?_⟩
  · have hsl : (diffCallerGraphs nb nc).1.Sublist nb :=
      (diffLoop_sublist (nb.length + nc.length) nb nc).1
    have hp : ((diffCallerGraphs nb nc).1 ++ (diffCallerGraphs nb nc).2.1).Perm nb ∧
        (diffCallerGraphs nb nc).2.2.length + (diffCallerGraphs nb nc).1.length = nc.length :=
      diffLoop_perm (nb.length + nc.length) nb nc
    have hkb := levelUpCallerGraph_first_keys hlb
    have hkc := levelUpCallerGraph_first_keys hlc
    have hinter : (diffCallerGraphs nb nc).1 = [] := by
      cases hI : (diffCallerGraphs nb nc).1 with
      | nil => rfl
      | cons C rest =>
        exfalso
        have hC : C ∈ (diffCallerGraphs nb nc).1 := by
          rw [hI]
          exact List.mem_cons_self _ _
        obtain ⟨_, chain, hch⟩ := pairCandidates_done_all hpc C hC
        simp only [afterLevelUp] at hch
        have hroot := (walkLinks_roots (fun c v hcv => (hkc.2.1 c v hcv).1) hch).2
        have hUc := (hkc.2.1 C none hroot).2
        have hUb := hkb.1 C (hsl.subset hC)
        exact hcg C (mem_callUsers.2 hUb) (mem_callUsers.2 hUc)
    rw [hinter] at hp
    obtain ⟨hpa, hpb⟩ := hp
    simp only [List.nil_append, List.length_nil, Nat.add_zero] at hpa hpb
    rw [he, Bool.and_eq_true, isEmpty_eq_true_iff_nil, isEmpty_eq_true_iff_nil]
    generalize (diffCallerGraphs nb nc).2.1 = restA at hpa ⊢
    generalize (diffCallerGraphs nb nc).2.2 = restB at hpb ⊢
    constructor
    · rintro ⟨ha, hb2⟩
      subst ha
      subst hb2
      exact ⟨hpa.symm.eq_nil, List.length_eq_zero.1 hpb.symm⟩
    · rintro ⟨ha, hb2⟩
      subst ha
      subst hb2
      exact ⟨hpa.eq_nil, List.length_eq_zero.1 hpb⟩
  · intro n
    simp only [searchLoop, h]

/-- Witness for C16: the first round of Scenario A, in which both new levels
hold one call instruction and the search goes on. -/
theorem searchRound_endSearch_iff_witness :
    (∀ c ∈ callUsers (scenarioA.users 1), c ∉ callUsers (scenarioA.users 2)) ∧
    afterRounds scenarioA 1 2 0 PassState.init = some PassState.init ∧
    ∃ st2, searchRound scenarioA 1 2 PassState.init = .done (st2, false) ∧
      ∃ new_blevel blinks blevels new_clevel clinks clevels,
        levelUpCallerGraph scenarioA 1 PassState.init.txBeginCallers
          PassState.init.txBeginCallees PassState.init.txBeginCallerLevels =
            .ok (new_blevel, blinks, blevels) ∧
        levelUpCallerGraph scenarioA 2 PassState.init.txCommitCallers
          PassState.init.txCommitCallees PassState.init.txCommitCallerLevels =
            .ok (new_clevel, clinks, clevels) ∧
        (false = true ↔ (new_blevel = [] ∧ new_clevel = [])) ∧
        ∀ n, searchLoop scenarioA 1 2 (n + 1) PassState.init =
          if false then .done st2 else searchLoop scenarioA 1 2 n st2 :=
  ⟨by decide, rfl, _, rfl,
    searchRound_endSearch_iff scenarioA 1 2 (by decide) 0 PassState.init _ false rfl rfl⟩

/-- C17: in every pair of chains of a run that finishes, the begin chain and
the commit chain have the same number of elements, which is the number of
boundaries recorded on each side, that is the number of rounds made; both
chains are paths along the back-links from one call instruction to a call
instruction with the null back-link, so that this call instruction is as deep
on the begin side as on the commit side. -/
theorem runOnModule_chains_same_length (rounds : Nat) (M : Module) (st : PassState)
    (h : runOnModule rounds M = .done st) :
    ∀ p ∈ st.pairs,
      p.1.length = p.2.length ∧
      p.1.length = st.txBeginCallerLevels.length ∧
      p.2.length = st.txCommitCallerLevels.length ∧
      ∃ C, PathFrom st.txBeginCallees (some none) C p.1 ∧
        PathFrom st.txCommitCallees (some none) C p.2 := by
  unfold runOnModule at h
  cases hb : M.xbegin with
  | none =>
    rw [hb] at h
    simp only [Outcome.done.injEq] at h
    subst h
    intro p hp
    simp [PassState.pairs, PassState.init] at hp
  | some txBegin =>
    rw [hb] at h
    simp only at h
    cases hc : M.xend with
    | none => rw [hc] at h; cases h
    | some txCommit =>
      rw [hc] at h
      simp only at h
      cases hs : searchLoop M txBegin txCommit rounds PassState.init with
      | violation v => rw [hs] at h; cases h
      | diverge => rw [hs] at h; cases h
      | done st1 =>
        rw [hs] at h
        simp only at h
        have heq := checkFinal_done h
        subst heq
        have hfirst := searchLoop_done_first hs
        obtain ⟨_, _, _, _, _, _, _, _, _, _, _, _, hlevb, hlevc, _⟩ :=
          searchRound_shape hfirst
        obtain ⟨nb, blinks, blevels, nc, clinks, clevels, st1, hlb, hlc, hpc, hst2, _⟩ :=
          searchRound_done hfirst
        obtain ⟨_, f2, _, _, f5, _, bs, cs, _, _, hbs, hcs, hall⟩ := pairCandidates_done hpc
        simp only [afterLevelUp, PassState.init, List.nil_append] at f2 f5 hbs hcs hall
        have hkb := levelUpCallerGraph_first_keys hlb
        have hkc := levelUpCallerGraph_first_keys hlc
        have hlb1 : st.txBeginCallerLevels.length = 1 := by
          rw [hlevb]
          simp [PassState.init]
        have hlc1 : st.txCommitCallerLevels.length = 1 := by
          rw [hlevc]
          simp [PassState.init]
        have hkeysb : st.txBeginCallees = blinks := by rw [hst2]; exact f2
        have hkeysc : st.txCommitCallees = clinks := by rw [hst2]; exact f5
        have hpairs : st.pairs = bs.zip cs := by
          rw [hst2]
          simp only [PassState.pairs, hbs, hcs]
        intro p hp
        rw [hpairs] at hp
        obtain ⟨C, _, hwb, hwc⟩ := hall p hp
        obtain ⟨hb1, hb2⟩ := walkLinks_roots (fun c v hcv => (hkb.2.1 c v hcv).1) hwb
        obtain ⟨hc1, hc2⟩ := walkLinks_roots (fun c v hcv => (hkc.2.1 c v hcv).1) hwc
        simp only [List.nil_append] at hb1 hc1
        rw [hlb1, hlc1, hb1, hc1, hkeysb, hkeysc]
        exact ⟨rfl, rfl, rfl, C, ⟨rfl, hb2⟩, ⟨rfl, hc2⟩⟩

/-- Witness for C17: the run finishes after one round with one pair, whose
chains have one element each, when one call instruction uses both markers; and
without a pair when no call instruction uses a marker. -/
theorem runOnModule_chains_same_length_witness :
    (∃ st, runOnModule 1 sharedCall = .done st ∧
      st.pairs = [([⟨10, 3⟩], [⟨10, 3⟩])] ∧
      ∀ p ∈ st.pairs,
        p.1.length = p.2.length ∧
        p.1.length = st.txBeginCallerLevels.length ∧
        p.2.length = st.txCommitCallerLevels.length ∧
        ∃ C, PathFrom st.txBeginCallees (some none) C p.1 ∧
          PathFrom st.txCommitCallees (some none) C p.2) ∧
    (∃ st, runOnModule 1 markersUnused = .done st ∧ st.pairs = [] ∧
      ∀ p ∈ st.pairs,
        p.1.length = p.2.length ∧
        p.1.length = st.txBeginCallerLevels.length ∧
        p.2.length = st.txCommitCallerLevels.length ∧
        ∃ C, PathFrom st.txBeginCallees (some none) C p.1 ∧
          PathFrom st.txCommitCallees (some none) C p.2) :=
  ⟨⟨_, rfl, rfl, runOnModule_chains_same_length 1 sharedCall _ rfl⟩,
    ⟨_, rfl, rfl, runOnModule_chains_same_length 1 markersUnused _ rfl⟩⟩

/-- Witness for C4: a run that finishes with one pair, on a module in which one
call instruction uses both markers, and a run that finishes without a pair, on a
module in which no call instruction uses a marker. -/
theorem runOnModule_pairs_anchored_witness :
    (∃ st, runOnModule 1 sharedCall = .done st ∧
      st.pairs = [([⟨10, 3⟩], [⟨10, 3⟩])] ∧
      ∀ p ∈ st.pairs, ∃ txBegin txCommit,
        sharedCall.xbegin = some txBegin ∧ sharedCall.xend = some txCommit ∧
        ∃ C lastB lastC, p.1.head? = some C ∧ p.2.head? = some C ∧
          p.1.getLast? = some lastB ∧ p.2.getLast? = some lastC ∧
          User.call lastB ∈ sharedCall.users txBegin ∧
          st.txBeginCallees.lookup lastB = some none ∧
          User.call lastC ∈ sharedCall.users txCommit ∧
          st.txCommitCallees.lookup lastC = some none) ∧
    (∃ st, runOnModule 1 markersUnused = .done st ∧ st.pairs = [] ∧
      ∀ p ∈ st.pairs, ∃ txBegin txCommit,
        markersUnused.xbegin = some txBegin ∧ markersUnused.xend = some txCommit ∧
        ∃ C lastB lastC, p.1.head? = some C ∧ p.2.head? = some C ∧
          p.1.getLast? = some lastB ∧ p.2.getLast? = some lastC ∧
          User.call lastB ∈ markersUnused.users txBegin ∧
          st.txBeginCallees.lookup lastB = some none ∧
          User.call lastC ∈ markersUnused.users txCommit ∧
          st.txCommitCallees.lookup lastC = some none) :=
  ⟨⟨_, rfl, rfl, runOnModule_pairs_anchored 1 sharedCall _ rfl⟩,
    ⟨_, rfl, rfl, runOnModule_pairs_anchored 1 markersUnused _ rfl⟩⟩

/-- Witness for C19: the first round of `scenarioCFlat`, whose intersection is
the call 10. -/
theorem begin_walk_never_fails_witness :
    ∃ blinks blevels clinks clevels,
      afterRounds scenarioCFlat 1 2 0 PassState.init = some PassState.init ∧
      levelUpCallerGraph scenarioCFlat 1 PassState.init.txBeginCallers
        PassState.init.txBeginCallees PassState.init.txBeginCallerLevels =
          .ok ([⟨10, 3⟩, ⟨11, 3⟩], blinks, blevels) ∧
      levelUpCallerGraph scenarioCFlat 2 PassState.init.txCommitCallers
        PassState.init.txCommitCallees PassState.init.txCommitCallerLevels =
          .ok ([⟨12, 3⟩], clinks, clevels) ∧
      (⟨10, 3⟩ : CallInst) ∈ (diffCallerGraphs [⟨10, 3⟩, ⟨11, 3⟩] [⟨12, 3⟩]).1 ∧
      ∃ chain, walkLinks blinks Violation.beginLinkMissing (blinks.length + 1) ⟨10, 3⟩ [] =
          .done chain ∧
        PathFrom blinks (some none) ⟨10, 3⟩ chain ∧ ∀ x ∈ chain, blinks.lookup x ≠ none :=
  ⟨_, _, _, _, rfl, rfl, rfl, by decide,
    (begin_walk_never_fails scenarioCFlat 1 2).2 0 _ rfl _ _ _ _ _ _ rfl rfl ⟨10, 3⟩
      (by decide)⟩

/-- C14 as stated fails: were the search bounded by a ceiling, the ceiling 1
would stop it after its first round with a result flagged incomplete.  On
`scenarioBEven` the first round does not end the loop, a second round is started
whatever the number of rounds allowed, and no number of rounds gives a
result. -/
theorem scenarioBEven_not_stopped_at_depth_one :
    ∃ st, searchRound scenarioBEven 1 2 PassState.init = Outcome.done (st, false) ∧
      runOnModule 1 scenarioBEven = Outcome.diverge ∧
      (∀ n, searchLoop scenarioBEven 1 2 (n + 2) PassState.init =
        searchLoop scenarioBEven 1 2 (n + 1) st) ∧
      ¬ ∃ rounds result, runOnModule rounds scenarioBEven = Outcome.done result := by
  refine ⟨_, rfl, rfl, fun n => rfl, ?_⟩
  rintro ⟨rounds, result, h⟩
  match rounds, h with
  | 0, h => cases h
  | 1, h => cases h
  | k + 2, h =>
    have hv : runOnModule (k + 2) scenarioBEven =
        Outcome.violation Violation.levelBoundaryAtEnd := rfl
    rw [hv] at h
    cases h

/-- C14, amended: the search has no depth ceiling.  After a round that completes
without setting `endSearch` the loop goes on with the next round, whatever the
number of rounds made before; and every result of the loop is the state after a
round that set `endSearch`, so that no result comes from a search that was
stopped early. -/
theorem searchLoop_has_no_ceiling (M : Module) (txBegin txCommit : Nat) :
    (∀ st st2, searchRound M txBegin txCommit st = .done (st2, false) →
      ∀ n, searchLoop M txBegin txCommit (n + 1) st = searchLoop M txBegin txCommit n st2) ∧
    (∀ rounds st st2, searchLoop M txBegin txCommit rounds st = .done st2 →
      ∃ st1, searchRound M txBegin txCommit st1 = .done (st2, true)) := by
  constructor
  · intro st st2 h n
    simp only [searchLoop, h, Bool.false_eq_true, if_false]
  · intro rounds st st2 h
    exact searchLoop_done_last h

/-- Witness for the amended C14: the first round of `scenarioBEven` is followed
by a second one, and the result of the run on `sharedCall` is the state after a
round that set `endSearch`. -/
theorem searchLoop_has_no_ceiling_witness :
    (∃ st2, searchRound scenarioBEven 1 2 PassState.init = .done (st2, false) ∧
      ∀ n, searchLoop scenarioBEven 1 2 (n + 1) PassState.init =
        searchLoop scenarioBEven 1 2 n st2) ∧
    (∃ st2, searchLoop sharedCall 1 2 1 PassState.init = .done st2 ∧
      ∃ st1, searchRound sharedCall 1 2 st1 = .done (st2, true)) :=
  ⟨⟨_, rfl, (searchLoop_has_no_ceiling scenarioBEven 1 2).1 PassState.init _ rfl⟩,
    ⟨_, rfl, (searchLoop_has_no_ceiling sharedCall 1 2).2 1 PassState.init _ rfl⟩⟩

end PrimeBort
